import Mathlib

/-! # Sort: plugin-based integer sorting (jacleland/Sort)

Shallow embedding of `radix.cpp`, `bubble.cpp` and `sortalgorithm.cpp`.

* A `std::vector<uint64_t>` is a `List Nat`; machine arithmetic is written with an
  explicit modulus (`% 2 ^ 32` for `uint32_t`, `% 2 ^ 64` for `uint64_t`).
* Every element access is checked: reading or writing outside a vector is the
  fault `Fault.outOfRange`, a division by zero is `Fault.divideByZero`, an `int`
  counter stepping past `INT_MAX` is `Fault.signedOverflow`.
* Loops whose exit is a run-time test take a pass budget (fuel); exhausting the
  budget is `Fault.outOfFuel`. The theorems `bubble_budget_adequate` and `radix_budget_adequate` show that the
  budgets given by the two `sort` functions are never exhausted.
* The dynamic loader (`dlopen`, `dlsym`, the call through a function pointer) is
  a `Platform` record; the process state records every call made to it. `dlopen`
  is a C function: of the `std::string` it is called on it receives `c_str()`, the
  characters before the first NUL.
-/

namespace JAC.Integer

/-- Ways in which a run of a sort routine can fail to return. -/
inductive Fault
  | outOfRange
  | divideByZero
  | signedOverflow
  | outOfFuel
  deriving DecidableEq, Repr

/-- Checked read `v[i]`. -/
def readAt (v : List Nat) (i : Nat) : Except Fault Nat :=
  match v[i]? with
  | some x => .ok x
  | none => .error .outOfRange

/-- Checked write `v[i] = x`. -/
def writeAt (v : List Nat) (i : Nat) (x : Nat) : Except Fault (List Nat) :=
  if i < v.length then .ok (v.set i x) else .error .outOfRange

/-- Run `body` exactly `n` times, stopping at the first fault. -/
def repeatM {σ : Type} (body : σ → Except Fault σ) : Nat → σ → Except Fault σ
  | 0, s => .ok s
  | n + 1, s =>
    match body s with
    | .ok s1 => repeatM body n s1
    | .error e => .error e

/-- Run `body` for the indices `i, i + 1, ..., i + n - 1`, stopping at the first fault. -/
def forM {σ : Type} (body : σ → Nat → Except Fault σ) : Nat → Nat → σ → Except Fault σ
  | 0, _, s => .ok s
  | n + 1, i, s =>
    match body s i with
    | .ok s1 => forM body n (i + 1) s1
    | .error e => .error e

/-! ## bubble.h / bubble.cpp -/

namespace BubbleSort

/-- The vector being sorted together with the member `swapped_`. -/
structure State where
  arr : List Nat
  swapped_ : Bool
  deriving DecidableEq, Repr

/-- What a call of `BubbleSort::sort` leaves behind: the returned vector, the
caller's vector `arr` (passed by reference) and the member `swapped_`. -/
structure Result where
  returned : List Nat
  arr : List Nat
  swapped_ : Bool
  deriving DecidableEq, Repr

/-- `BubbleSort::swap(left, right)`: the iterators are positions in `arr`.
`temp = *left; *left = *right; *right = temp; swapped_ = true`. -/
def swap (s : State) (left right : Nat) : Except Fault State :=
  match s.arr[left]?, s.arr[right]? with
  | some l, some r => .ok { arr := (s.arr.set left r).set right l, swapped_ := true }
  | _, _ => .error .outOfRange

/-- The pass `for(itr = arr.begin(); itr != arr.end()-1; itr++)` with
`itr = arr.begin() + i`. The exit test is the inequality of the source, taken
over the integers because `arr.end()-1` lies before `arr.begin()` when the
vector is empty. -/
def forLoop : Nat → Nat → State → Except Fault State
  | 0, _, _ => .error .outOfFuel
  | fuel + 1, i, s =>
    if (i : Int) = (s.arr.length : Int) - 1 then .ok s
    else
      match s.arr[i]?, s.arr[i + 1]? with
      | some a, some b =>
        if a > b then
          match swap s i (i + 1) with
          | .ok s1 => forLoop fuel (i + 1) s1
          | .error e => .error e
        else forLoop fuel (i + 1) s
      | _, _ => .error .outOfRange

/-- The loop `do { swapped_ = false; <pass> } while(swapped_ == true)`; the first
argument is the number of passes allowed. -/
def doWhile : Nat → State → Except Fault State
  | 0, _ => .error .outOfFuel
  | fuel + 1, s =>
    match forLoop (s.arr.length + 1) 0 { s with swapped_ := false } with
    | .ok s1 => if s1.swapped_ = true then doWhile fuel s1 else .ok s1
    | .error e => .error e

/-- `BubbleSort::sort(arr)` called on an instance whose member `swapped_` holds
the given value. -/
def sort (swapped_ : Bool) (arr : List Nat) : Except Fault Result :=
  match doWhile (arr.length + 1) { arr := arr, swapped_ := swapped_ } with
  | .ok s => .ok { returned := s.arr, arr := s.arr, swapped_ := s.swapped_ }
  | .error e => .error e

/-- The member initialiser `bool swapped_ = false` of a new instance. -/
def newInstance : Bool := false

/-- One pass read on lists: `x` is the element under the iterator, `r` what lies
after it, `sw` the flag so far. Used to reason about `forLoop`. -/
def carry : Nat → List Nat → Bool → List Nat × Bool
  | x, [], sw => ([x], sw)
  | x, y :: r, sw =>
    if x > y then ((y :: (carry x r true).1), (carry x r true).2)
    else ((x :: (carry y r sw).1), (carry y r sw).2)

end BubbleSort

/-! ## radix.h / radix.cpp -/

namespace RadixSort

/-- The value of `(int) log10((double) v)` for `1 ≤ v`: the number of powers
`10 ^ 1, ..., 10 ^ 20` not above `v` (a `uint64_t` is below `10 ^ 20`). The
conversion to `double` and the library logarithm are taken as exact. -/
def log10 (v : Nat) : Nat :=
  ((List.range 20).filter (fun k => decide (10 ^ (k + 1) ≤ v))).length

/-- The locals of `RadixSort::sort` and the member `count_`.
`inputIsArr` is `pinput == &arr` (then `poutput == &sorted`), and the other way
round when it is `false`. `passes` is a ghost record of the divisors of the
passes completed so far. -/
structure Locals where
  arr : List Nat
  sorted : List Nat
  inputIsArr : Bool
  radix : Nat
  maxval : Nat
  idx : Nat
  div : Nat
  count_ : List Nat
  passes : List Nat
  deriving DecidableEq, Repr

/-- The vector `*pinput`. -/
def Locals.input (s : Locals) : List Nat :=
  if s.inputIsArr = true then s.arr else s.sorted

/-- The vector `*poutput`. -/
def Locals.output (s : Locals) : List Nat :=
  if s.inputIsArr = true then s.sorted else s.arr

/-- Store a new value of the vector `*poutput`. -/
def Locals.setOutput (s : Locals) (out : List Nat) : Locals :=
  if s.inputIsArr = true then { s with sorted := out } else { s with arr := out }

/-- What a call of `RadixSort::sort` leaves behind: the returned vector, the
caller's vector `arr`, the member `count_`, and the divisors of the passes made. -/
structure Result where
  returned : List Nat
  arr : List Nat
  count_ : List Nat
  passes : List Nat
  deriving DecidableEq, Repr

/-- Body of the counting loop `for(int arrayidx = 0; arrayidx < arr.size(); arrayidx++)`
followed by its increment `arrayidx++` on an `int`. -/
def countBody (s : Locals) (arrayidx : Nat) : Except Fault Locals :=
  match readAt s.input arrayidx with
  | .error e => .error e
  | .ok val =>
    let s1 : Locals :=
      if s.div = 1 ∧ val > s.maxval then
        { s with maxval := val, radix := (if val > 0 then log10 val + 1 else 1) % 2 ^ 16 }
      else s
    if s1.div = 0 then .error .divideByZero
    else
      let countidx := ((val / s1.div) % 10) % 2 ^ 8
      match readAt s1.count_ countidx with
      | .error e => .error e
      | .ok c =>
        if arrayidx + 1 > 2147483647 then .error .signedOverflow
        else .ok { s1 with count_ := s1.count_.set countidx ((c + 1) % 2 ^ 32) }

/-- Body of `for(uint8_t countidx = 1; countidx < 10; countidx++)`:
`count_[countidx] += count_[countidx - 1]`. -/
def fixBody (s : Locals) (countidx : Nat) : Except Fault Locals :=
  match readAt s.count_ countidx, readAt s.count_ (countidx - 1) with
  | .ok c, .ok p => .ok { s with count_ := s.count_.set countidx ((c + p) % 2 ^ 32) }
  | _, _ => .error .outOfRange

/-- Body of the move loop, run once for every position of the reverse iterator:
`(*poutput)[count_[countidx] - 1] = (*pinput)[idx]; count_[countidx]--; idx--`. -/
def moveBody (s : Locals) : Except Fault Locals :=
  match readAt s.input s.idx with
  | .error e => .error e
  | .ok val =>
    if s.div = 0 then .error .divideByZero
    else
      let countidx := ((val / s.div) % 10) % 2 ^ 8
      match readAt s.count_ countidx with
      | .error e => .error e
      | .ok c =>
        match writeAt s.output ((c + 2 ^ 32 - 1) % 2 ^ 32) val with
        | .error e => .error e
        | .ok out =>
          .ok { s.setOutput out with
                count_ := s.count_.set countidx ((c + 2 ^ 32 - 1) % 2 ^ 32),
                idx := (s.idx + 2 ^ 64 - 1) % 2 ^ 64 }

/-- One execution of the body of the radix loop: clear the counters, count the
digits, build the prefix sums, move the elements, swap `pinput` and `poutput`. -/
def pass (s : Locals) : Except Fault Locals :=
  match forM countBody s.arr.length 0 { s with count_ := List.replicate 10 0 } with
  | .error e => .error e
  | .ok s1 =>
    match forM fixBody 9 1 s1 with
    | .error e => .error e
    | .ok s2 =>
      match repeatM moveBody s2.input.length
          { s2 with idx := (s2.input.length + 2 ^ 64 - 1) % 2 ^ 64 } with
      | .error e => .error e
      | .ok s3 =>
        .ok { s3 with inputIsArr := !s3.inputIsArr, passes := s3.passes ++ [s3.div] }

/-- Where and why a run of the radix loop stopped without reaching its exit:
`locals` are the locals at the test before the pass that faulted (or at the test
at which the pass budget was used up). -/
structure Stop where
  fault : Fault
  locals : Locals
  deriving DecidableEq, Repr

/-- The loop `for(uint32_t div = 1; div < pow(10, radix); div *= 10)` from its
test onwards; the first argument is the number of passes allowed. -/
def loop : Nat → Locals → Except Stop Locals
  | 0, s => .error { fault := .outOfFuel, locals := s }
  | fuel + 1, s =>
    if s.div < 10 ^ s.radix then
      match pass s with
      | .ok s1 => loop fuel { s1 with div := (s1.div * 10) % 2 ^ 32 }
      | .error e => .error { fault := e, locals := s }
    else .ok s

/-- The locals on entry to the radix loop: `radix = 1`, `maxval = 0`, `div = 1`,
`sorted` a vector of `arr.size()` zeros, `pinput = &arr`, `poutput = &sorted`. -/
def init (count_ : List Nat) (arr : List Nat) : Locals :=
  { arr := arr, sorted := List.replicate arr.length 0, inputIsArr := true,
    radix := 1, maxval := 0, idx := 0, div := 1, count_ := count_, passes := [] }

/-- The tail of `RadixSort::sort`: `if(pinput != &arr) arr = std::move(*pinput); return arr;`. -/
def finish (s : Locals) : Result :=
  let arr1 := if s.inputIsArr = true then s.arr else s.input
  { returned := arr1, arr := arr1, count_ := s.count_, passes := s.passes }

/-- The pass budget given to the radix loop by `sort`: `div` runs through the
values `10 ^ k % 2 ^ 32`, which reach `0` at `k = 32`. -/
def passBudget : Nat := 34

/-- `RadixSort::sort(arr)` called on an instance whose member `count_` holds the
given vector. -/
def sort (count_ : List Nat) (arr : List Nat) : Except Fault Result :=
  match loop passBudget (init count_ arr) with
  | .ok s => .ok (finish s)
  | .error e => .error e.fault

/-- The constructor `RadixSort::RadixSort()`: `count_.resize(10)` leaves ten zeros
in the member `count_` of a new instance. -/
def newInstance : List Nat := List.replicate 10 0

/-- The digit key `(val / div) % 10` of a value in a pass with divisor `div`. -/
def digit (div val : Nat) : Nat := (val / div) % 10

/-- The elements of `input` whose digit key is `d`, in the order they have in `input`. -/
def bucket (div : Nat) (input : List Nat) (d : Nat) : List Nat :=
  input.filter (fun v => decide (digit div v = d))

/-- The number of elements of `input` whose digit key is below `d`. -/
def offset (div : Nat) (input : List Nat) (d : Nat) : Nat :=
  input.countP (fun v => decide (digit div v < d))

/-- The stable counting sort of the specification, written from its words: the
elements ordered by non-decreasing digit key `0, 1, ..., 9`, those with the same
key in the order they had in `input`. -/
def stableByDigit (div : Nat) (input : List Nat) : List Nat :=
  (List.range 10).flatMap (bucket div input)

/-- The update of `(radix, maxval)` made by the counting loop for one value:
`if(div == 1 && val > maxval) radix = ((maxval = val) > 0) ? (int) log10(...) + 1 : 1`. -/
def scanStep (div : Nat) (rm : Nat × Nat) (val : Nat) : Nat × Nat :=
  if div = 1 ∧ val > rm.2 then ((if val > 0 then log10 val + 1 else 1) % 2 ^ 16, val) else rm

/-- The placement index `count_[countidx] - 1` that the next run of the body of
the move loop writes to; `none` when one of its reads is out of range. -/
def placement (s : Locals) : Option Nat :=
  match readAt s.input s.idx with
  | .error _ => none
  | .ok val =>
    match readAt s.count_ (((val / s.div) % 10) % 2 ^ 8) with
    | .error _ => none
    | .ok c => some ((c + 2 ^ 32 - 1) % 2 ^ 32)

/-- The placement indices written by the first `k` runs of the body of the move
loop, in the order they are written. -/
def moveTrace : Nat → Locals → List Nat
  | 0, _ => []
  | k + 1, s =>
    match placement s, moveBody s with
    | some p, .ok s1 => p :: moveTrace k s1
    | _, _ => []

/-- The placement indices written by the move loop of one pass. -/
def placements (s : Locals) : List Nat :=
  match forM countBody s.arr.length 0 { s with count_ := List.replicate 10 0 } with
  | .error _ => []
  | .ok s1 =>
    match forM fixBody 9 1 s1 with
    | .error _ => []
    | .ok s2 =>
      moveTrace s2.input.length { s2 with idx := (s2.input.length + 2 ^ 64 - 1) % 2 ^ 64 }

end RadixSort

/-! ## sortalgorithm.h / sortalgorithm.cpp -/

/-- Class `LibFunctions`: the two function pointers `create_` and `destroy_`,
as addresses; `0` is the null pointer. -/
structure LibFunctions where
  create_ : Nat
  destroy_ : Nat
  deriving DecidableEq, Repr

/-- The default constructor `LibFunctions() : create_(nullptr), destroy_(nullptr)`. -/
def LibFunctions.null : LibFunctions := { create_ := 0, destroy_ := 0 }

/-- An object of class `SortAlgorithm`: the member `typeName_`, and (ghost) the
address of the factory function that allocated the object. -/
structure SortAlgorithm where
  typeName_ : String
  allocatedBy : Nat
  deriving DecidableEq, Repr

/-- `SortAlgorithm::setTypeName`. -/
def SortAlgorithm.setTypeName (self : SortAlgorithm) (typeName : String) : SortAlgorithm :=
  { self with typeName_ := typeName }

/-- `SortAlgorithm::typeName`. -/
def SortAlgorithm.typeName (self : SortAlgorithm) : String := self.typeName_

/-- The NUL character, which ends a C string. -/
def nul : Char := Char.ofNat 0

/-- The C string `s.c_str()` of a `std::string` as a C function reads it: the
characters of `s` before its first NUL. -/
def c_str (s : String) : String :=
  String.mk (s.data.takeWhile (fun c => decide (c ≠ nul)))

/-- The surroundings of the loader: whether `__gnu_linux__` is defined, the
result of the C function `dlopen(identifier, RTLD_NOW)` on a C string (`0` when
the module cannot be located or opened), the result of `dlsym(handle, symbol)`
(`0` when the symbol is absent), and the object that a call through a factory
pointer returns. -/
structure Platform where
  gnuLinux : Bool
  dlopenC : String → Nat
  dlsym : Nat → String → Nat
  construct : Nat → SortAlgorithm

/-- The call `::dlopen(s.c_str(), RTLD_NOW)` on a `std::string` `s`: the platform
is asked to open the identifier `s.c_str()`. -/
def Platform.dlopen (P : Platform) (s : String) : Nat := P.dlopenC (c_str s)

/-- Macro `LIBPREFIX`. -/
def LIBPREFIX (P : Platform) : String := if P.gnuLinux = true then "lib" else ""

/-- Macro `LIBSUFFIX`. -/
def LIBSUFFIX (P : Platform) : String := if P.gnuLinux = true then ".so" else ".dll"

/-- The process-wide state: the static member `functionMap_`, and (ghost) the
record of every `dlopen` call (the string `libname` whose `c_str()` is its
argument), of every call through a `create_`
pointer (the address called) and of every call through a `destroy_` pointer (the
address called and the object handed to it). -/
structure Process where
  functionMap_ : List (String × LibFunctions)
  dlopenCalls : List String
  createCalls : List Nat
  destroyCalls : List (Nat × SortAlgorithm)
  deriving DecidableEq, Repr

/-- The process at start-up: `functionMap_` is empty and nothing has been called. -/
def Process.start : Process :=
  { functionMap_ := [], dlopenCalls := [], createCalls := [], destroyCalls := [] }

/-- How a loader operation fails: `throw std::exception()`, or a member access
through a null `SortAlgorithm*`. -/
inductive Failure
  | exception
  | nullDereference
  deriving DecidableEq, Repr

/-- The library name built in `instanceApiFor`:
`std::string(LIBPREFIX)+name+LIBSUFFIX`. -/
def SortAlgorithm.libname (P : Platform) (name : String) : String :=
  LIBPREFIX P ++ name ++ LIBSUFFIX P

/-- `SortAlgorithm::instanceApiFor(name)`. -/
def SortAlgorithm.instanceApiFor (P : Platform) (st : Process) (name : String) :
    Process × Except Failure LibFunctions :=
  let libname := SortAlgorithm.libname P name
  let st1 : Process := { st with dlopenCalls := st.dlopenCalls ++ [libname] }
  let handle := P.dlopen libname
  if handle = 0 then (st1, .error .exception)
  else
    let functions : LibFunctions :=
      { create_ := P.dlsym handle "create", destroy_ := P.dlsym handle "destroy" }
    if functions.create_ = 0 ∨ functions.destroy_ = 0 then (st1, .error .exception)
    else (st1, .ok functions)

/-- `SortAlgorithm::create(name)`. -/
def SortAlgorithm.create (P : Platform) (st : Process) (name : String) :
    Process × Except Failure SortAlgorithm :=
  match SortAlgorithm.instanceApiFor P st name with
  | (st1, .error e) => (st1, .error e)
  | (st1, .ok functions) =>
    let sorter := P.construct functions.create_
    ({ st1 with createCalls := st1.createCalls ++ [functions.create_] },
      .ok (sorter.setTypeName name))

/-- `SortAlgorithm::destroy(obj)`; `obj` is the caller's pointer (`none` is the
null pointer) and the result is that pointer after the call. The function behind
`destroy_` is the `destroy` of the modules of this repository:
`if(obj != nullptr) delete obj; obj = nullptr;`. -/
def SortAlgorithm.destroy (P : Platform) (st : Process) (obj : Option SortAlgorithm) :
    Process × Except Failure (Option SortAlgorithm) :=
  match obj with
  | none => (st, .error .nullDereference)
  | some o =>
    match SortAlgorithm.instanceApiFor P st o.typeName with
    | (st1, .error e) => (st1, .error e)
    | (st1, .ok functions) =>
      ({ st1 with destroyCalls := st1.destroyCalls ++ [(functions.destroy_, o)] }, .ok none)

/-- The exported function `destroy(obj)` of the modules (`radix.cpp`,
`bubble.cpp`): `if(obj != nullptr) delete obj; obj = nullptr;`. The result is the
caller's pointer after the call and the objects that were deleted. -/
def moduleDestroy (obj : Option SortAlgorithm) : Option SortAlgorithm × List SortAlgorithm :=
  match obj with
  | some o => (none, [o])
  | none => (none, [])

/-- A call made by a client of the loader. -/
inductive Call
  | create (name : String)
  | destroy (obj : Option SortAlgorithm)

/-- The process after one call. -/
def Process.step (P : Platform) (st : Process) : Call → Process
  | .create name => (SortAlgorithm.create P st name).1
  | .destroy obj => (SortAlgorithm.destroy P st obj).1

/-- The process after a sequence of calls made from start-up. -/
def Process.run (P : Platform) (calls : List Call) : Process :=
  calls.foldl (Process.step P) Process.start

/-- The client scenario of two successive `create(name)` calls followed by
`destroy` on the first handle (`useFirst = true`) or on the second one; the
result is the process afterwards, or `none` when one of the three calls fails. -/
def createTwiceThenDestroy (P : Platform) (st : Process) (name : String) (useFirst : Bool) :
    Option Process :=
  match SortAlgorithm.create P st name with
  | (_, .error _) => none
  | (st1, .ok h1) =>
    match SortAlgorithm.create P st1 name with
    | (_, .error _) => none
    | (st2, .ok h2) =>
      match SortAlgorithm.destroy P st2 (some (if useFirst = true then h1 else h2)) with
      | (_, .error _) => none
      | (st3, .ok _) => some st3

/-- A platform used in examples: GNU/Linux with `libradix.so` (handle 1,
`create` at 100, `destroy` at 101), `libbubble.so` (handle 2, `create` at 200,
`destroy` at 201), `libnofactory.so` (handle 3, only `destroy`, at 301) and no
other module. -/
def demoPlatform : Platform :=
  { gnuLinux := true
    dlopenC := fun identifier =>
      if identifier = "libradix.so" then 1
      else if identifier = "libbubble.so" then 2
      else if identifier = "libnofactory.so" then 3
      else 0
    dlsym := fun handle symbol =>
      if handle = 1 then (if symbol = "create" then 100 else if symbol = "destroy" then 101 else 0)
      else if handle = 2 then
        (if symbol = "create" then 200 else if symbol = "destroy" then 201 else 0)
      else if handle = 3 then (if symbol = "destroy" then 301 else 0)
      else 0
    construct := fun address => { typeName_ := "", allocatedBy := address } }

/-- A platform used in examples: GNU/Linux with the single module `liba`
(handle 1, `create` at 100, `destroy` at 101). -/
def cutPlatform : Platform :=
  { gnuLinux := true
    dlopenC := fun identifier => if identifier = "liba" then 1 else 0
    dlsym := fun handle symbol =>
      if handle = 1 then (if symbol = "create" then 100 else if symbol = "destroy" then 101 else 0)
      else 0
    construct := fun address => { typeName_ := "", allocatedBy := address } }

/-- The name made of `a`, a NUL character and `b`. -/
def nameWithNulB : String := String.mk [Char.ofNat 97, nul, Char.ofNat 98]

/-- The name made of `a`, a NUL character and `c`. -/
def nameWithNulC : String := String.mk [Char.ofNat 97, nul, Char.ofNat 99]

/-- The locals of `RadixSort::sort` on `[1000000000]` at the loop test that
follows the 32nd pass. -/
def RadixSort.zeroDivisorLocals : RadixSort.Locals :=
  { arr := [1000000000], sorted := [1000000000], inputIsArr := true,
    radix := 10, maxval := 1000000000, idx := 18446744073709551615, div := 0,
    count_ := [0, 1, 1, 1, 1, 1, 1, 1, 1, 1],
    passes := [1, 10, 100, 1000, 10000, 100000, 1000000, 10000000, 100000000,
      1000000000, 1410065408, 1215752192, 3567587328, 1316134912, 276447232,
      2764472320, 1874919424, 1569325056, 2808348672, 2313682944, 1661992960,
      3735027712, 2990538752, 4135583744, 2701131776, 1241513984, 3825205248,
      3892314112, 268435456, 2684354560, 1073741824, 2147483648] }

/-! # Theorems -/

/-! ## BubbleSort -/

namespace BubbleSort

theorem forLoop_carry (r : List Nat) : ∀ (pre : List Nat) (x : Nat) (sw : Bool) (fuel : Nat),
    r.length + 1 ≤ fuel →
    forLoop fuel pre.length { arr := pre ++ x :: r, swapped_ := sw }
      = .ok { arr := pre ++ (carry x r sw).1, swapped_ := (carry x r sw).2 } := by
  induction r with
  | nil =>
    intro pre x sw fuel hf
    obtain ⟨f, rfl⟩ : ∃ f, fuel = f + 1 := ⟨fuel - 1, by simp at hf; omega⟩
    simp [forLoop, carry]
  | cons y r ih =>
    intro pre x sw fuel hf
    obtain ⟨f, rfl⟩ : ∃ f, fuel = f + 1 := ⟨fuel - 1, by simp at hf; omega⟩
    have hf2 : r.length + 1 ≤ f := by simp at hf; omega
    have hne : ¬ ((pre.length : Int) = ((pre ++ x :: y :: r).length : Int) - 1) := by
      simp; omega
    have h1 : (pre ++ x :: y :: r)[pre.length]? = some x := by
      rw [List.getElem?_append_right (le_refl _)]; simp
    have h2 : (pre ++ x :: y :: r)[pre.length + 1]? = some y := by
      rw [List.getElem?_append_right (by omega)]; simp
    have ih1 := ih (pre ++ [y]) x true f hf2
    have ih2 := ih (pre ++ [x]) y sw f hf2
    simp only [List.length_append, List.length_singleton, List.append_assoc,
      List.singleton_append] at ih1 ih2
    unfold forLoop
    rw [if_neg hne]
    simp only [h1, h2, swap]
    by_cases hxy : x > y
    · simp only [hxy, if_true, carry]
      have hset : ((pre ++ x :: y :: r).set pre.length y).set (pre.length + 1) x
          = pre ++ y :: x :: r := by
        simp [List.set_append]
      rw [hset, ih1]
    · simp only [hxy, if_false, carry]
      rw [ih2]

theorem carry_perm (r : List Nat) : ∀ (x : Nat) (sw : Bool), (carry x r sw).1.Perm (x :: r) := by
  induction r with
  | nil => intro x sw; simp [carry]
  | cons y r ih =>
    intro x sw
    by_cases hxy : x > y
    · simp only [carry, hxy, if_true]
      exact ((ih x true).cons y).trans (List.Perm.swap x y r)
    · simp only [carry, hxy, if_false]
      exact (ih y sw).cons x

theorem carry_length (r : List Nat) (x : Nat) (sw : Bool) :
    (carry x r sw).1.length = r.length + 1 := by
  simpa using (carry_perm r x sw).length_eq

theorem carry_flag_mono (r : List Nat) : ∀ (x : Nat), (carry x r true).2 = true := by
  induction r with
  | nil => intro x; simp [carry]
  | cons y r ih =>
    intro x
    by_cases hxy : x > y
    · simp only [carry, hxy, if_true]; exact ih x
    · simp only [carry, hxy, if_false]; exact ih y

theorem carry_noswap (r : List Nat) : ∀ (x : Nat) (sw : Bool), (carry x r sw).2 = false →
    sw = false ∧ (carry x r sw).1 = x :: r ∧ (x :: r).Sorted (· ≤ ·) := by
  induction r with
  | nil => intro x sw h; simpa [carry] using h
  | cons y r ih =>
    intro x sw h
    by_cases hxy : x > y
    · simp only [carry, hxy, if_true] at h
      rw [carry_flag_mono] at h
      exact absurd h (by simp)
    · simp only [carry, hxy, if_false] at h ⊢
      obtain ⟨h1, h2, h3⟩ := ih y sw h
      refine ⟨h1, by rw [h2], ?_⟩
      have hle : x ≤ y := Nat.le_of_not_lt hxy
      exact List.Sorted.cons hle h3

theorem carry_sorted (r : List Nat) : ∀ (x : Nat) (sw : Bool), (x :: r).Sorted (· ≤ ·) →
    carry x r sw = (x :: r, sw) := by
  induction r with
  | nil => intro x sw _; simp [carry]
  | cons y r ih =>
    intro x sw h
    have hxy : ¬ x > y := by
      have := List.rel_of_sorted_cons h y (List.mem_cons_self y r)
      omega
    simp only [carry, hxy, if_false]
    rw [ih y sw (List.Sorted.of_cons h)]

theorem carry_append (p : List Nat) : ∀ (x : Nat) (sw : Bool) (s : List Nat),
    s.Sorted (· ≤ ·) → (∀ a ∈ x :: p, ∀ b ∈ s, a ≤ b) →
    carry x (p ++ s) sw = ((carry x p sw).1 ++ s, (carry x p sw).2) := by
  induction p with
  | nil =>
    intro x sw s hs hle
    have hxs : (x :: s).Sorted (· ≤ ·) :=
      List.sorted_cons.mpr ⟨fun b hb => hle x (List.mem_cons_self x []) b hb, hs⟩
    simp [carry, carry_sorted s x sw hxs]
  | cons y p ih =>
    intro x sw s hs hle
    by_cases hxy : x > y
    · have h := ih x true s hs (fun a ha b hb => hle a (by
        rcases List.mem_cons.mp ha with h | h
        · simp [h]
        · simp [h]) b hb)
      show carry x (y :: (p ++ s)) sw = _
      simp only [carry, hxy, if_true, h, List.cons_append]
    · have h := ih y sw s hs (fun a ha b hb => hle a (List.mem_cons_of_mem x ha) b hb)
      show carry x (y :: (p ++ s)) sw = _
      simp only [carry, hxy, if_false, h, List.cons_append]

theorem carry_last (r : List Nat) : ∀ (x : Nat) (sw : Bool),
    ∃ q m, (carry x r sw).1 = q ++ [m] ∧ (∀ a ∈ q, a ≤ m) ∧ x ≤ m := by
  induction r with
  | nil => intro x sw; exact ⟨[], x, by simp [carry]⟩
  | cons y r ih =>
    intro x sw
    by_cases hxy : x > y
    · obtain ⟨q, m, h1, h2, h3⟩ := ih x true
      refine ⟨y :: q, m, by simp [carry, hxy, h1], ?_, h3⟩
      intro a ha
      rcases List.mem_cons.mp ha with h | h
      · omega
      · exact h2 a h
    · obtain ⟨q, m, h1, h2, h3⟩ := ih y sw
      refine ⟨x :: q, m, by simp [carry, hxy, h1], ?_, by omega⟩
      intro a ha
      rcases List.mem_cons.mp ha with h | h
      · omega
      · exact h2 a h

theorem doWhile_sorts (fuel : Nat) : ∀ (p s : List Nat) (sw : Bool),
    s.Sorted (· ≤ ·) → (∀ a ∈ p, ∀ b ∈ s, a ≤ b) → p.length ≤ fuel → 1 ≤ fuel →
    p ++ s ≠ [] →
    ∃ r, doWhile fuel { arr := p ++ s, swapped_ := sw } = .ok { arr := r, swapped_ := false }
      ∧ r.Perm (p ++ s) ∧ r.Sorted (· ≤ ·) := by
  induction fuel with
  | zero => intro p s sw _ _ _ h1; omega
  | succ f ih =>
    intro p s sw hs hle hlen _ hne
    obtain ⟨x, t, hxt⟩ : ∃ x t, p ++ s = x :: t := by
      cases h : p ++ s with
      | nil => exact absurd h hne
      | cons x t => exact ⟨x, t, rfl⟩
    have hpass := forLoop_carry t [] x false (t.length + 1 + 1) (by omega)
    simp only [List.nil_append, List.length_nil] at hpass
    unfold doWhile
    simp only [hxt, List.length_cons, hpass]
    cases hflag : (carry x t false).2 with
    | false =>
      obtain ⟨_, h2, h3⟩ := carry_noswap t x false hflag
      refine ⟨x :: t, ?_, List.Perm.refl _, h3⟩
      simp [h2]
    | true =>
      cases p with
      | nil =>
        simp only [List.nil_append] at hxt
        rw [hxt] at hs
        rw [carry_sorted t x false hs] at hflag
        exact absurd hflag (by simp)
      | cons x0 p0 =>
        simp only [List.cons_append, List.cons.injEq] at hxt
        obtain ⟨rfl, rfl⟩ := hxt
        have happ := carry_append p0 x0 false s hs hle
        obtain ⟨q, m, hq, hqm, _⟩ := carry_last p0 x0 false
        have hperm := carry_perm p0 x0 false
        rw [hq] at hperm
        have hqlen : q.length = p0.length := by
          have := hperm.length_eq
          simp at this
          exact this
        have hmem : ∀ a ∈ q ++ [m], a ∈ x0 :: p0 := fun a ha => hperm.subset ha
        have hf : 1 ≤ f := by
          rcases Nat.eq_zero_or_pos f with h0 | h0
          · subst h0
            have : p0 = [] := by
              simp at hlen
              exact hlen
            subst this
            rw [happ] at hflag
            simp [carry] at hflag
          · exact h0
        have hsorted : (m :: s).Sorted (· ≤ ·) :=
          List.sorted_cons.mpr ⟨fun b hb => hle m (hmem m (by simp)) b hb, hs⟩
        have hle2 : ∀ a ∈ q, ∀ b ∈ m :: s, a ≤ b := by
          intro a ha b hb
          rcases List.mem_cons.mp hb with h | h
          · rw [h]; exact hqm a ha
          · exact hle a (hmem a (by simp [ha])) b h
        obtain ⟨r, hr1, hr2, hr3⟩ := ih q (m :: s) true hsorted hle2
          (by simp at hlen; omega) hf (by simp)
        refine ⟨r, ?_, ?_, hr3⟩
        · rw [happ] at hflag ⊢
          simp only at hflag
          simp only [hflag, if_true, hq, List.append_assoc, List.singleton_append]
          exact hr1
        · refine hr2.trans ?_
          have : (q ++ m :: s).Perm ((q ++ [m]) ++ s) := by simp
          exact this.trans (hperm.append_right s)

/-- The pass budget of `sort` is never the reason for a fault: on a vector of
`n ≥ 1` elements the loop ends within `n + 1` passes, and on the empty vector the
first pass reads outside the vector. -/
theorem bubble_budget_adequate (swapped_ : Bool) (A : List Nat) :
    sort swapped_ A ≠ .error .outOfFuel := by
  cases A with
  | nil => cases swapped_ <;> (intro h; cases h)
  | cons x t =>
    obtain ⟨r, h1, _, _⟩ := doWhile_sorts ((x :: t).length + 1) (x :: t) [] swapped_
      List.sorted_nil (by simp) (by omega) (by omega) (by simp)
    simp only [List.append_nil] at h1
    unfold sort
    rw [h1]
    intro h
    cases h

/-- C2. For every vector `A` with at least one element (the elements are
natural numbers, so in particular every vector of unsigned 64-bit integers) and
whatever the member `swapped_` holds, `BubbleSort::sort(A)` returns: the result
is a permutation of `A` in non-decreasing order, and the caller's vector holds
the same sequence. `[5, 3, 8, 1, 9, 2]` gives `[1, 2, 3, 5, 8, 9]` and
`[4, 4, 2, 4, 1]` gives `[1, 2, 4, 4, 4]`. -/
theorem sort_sorted_perm (swapped_ : Bool) (A : List Nat) (hne : A ≠ []) :
    (∃ r, sort swapped_ A = .ok r ∧ r.returned.Perm A ∧ r.returned.Sorted (· ≤ ·)
        ∧ r.arr = r.returned)
    ∧ sort swapped_ [5, 3, 8, 1, 9, 2]
        = .ok { returned := [1, 2, 3, 5, 8, 9], arr := [1, 2, 3, 5, 8, 9], swapped_ := false }
    ∧ sort swapped_ [4, 4, 2, 4, 1]
        = .ok { returned := [1, 2, 4, 4, 4], arr := [1, 2, 4, 4, 4], swapped_ := false } := by
  refine ⟨?_, ?_, ?_⟩
  · obtain ⟨r, h1, h2, h3⟩ := doWhile_sorts (A.length + 1) A [] swapped_
      List.sorted_nil (by simp) (by omega) (by omega) (by simpa using hne)
    simp only [List.append_nil] at h1 h2
    exact ⟨{ returned := r, arr := r, swapped_ := false }, by simp [sort, h1], h2, h3, rfl⟩
  · cases swapped_ <;> rfl
  · cases swapped_ <;> rfl

/-- Witness for C2: the theorem applied to the vector `[5, 3, 8, 1, 9, 2]`. -/
theorem sort_sorted_perm_witness :
    ([5, 3, 8, 1, 9, 2] : List Nat) ≠ [] ∧
    ∃ r, sort false [5, 3, 8, 1, 9, 2] = .ok r ∧ r.returned.Perm [5, 3, 8, 1, 9, 2]
      ∧ r.returned.Sorted (· ≤ ·) ∧ r.arr = r.returned :=
  ⟨by decide, (sort_sorted_perm false [5, 3, 8, 1, 9, 2] (by decide)).1⟩

end BubbleSort


/-! ## RadixSort -/

namespace RadixSort

theorem forM_keeps {σ α : Type} (body : σ → Nat → Except Fault σ) (f : σ → α)
    (hb : ∀ s i s1, body s i = .ok s1 → f s1 = f s) :
    ∀ (n i : Nat) (s s1 : σ), forM body n i s = .ok s1 → f s1 = f s := by
  intro n
  induction n with
  | zero =>
    intro i s s1 h
    simp only [forM, Except.ok.injEq] at h
    rw [h]
  | succ n ih =>
    intro i s s1 h
    simp only [forM] at h
    cases hbody : body s i with
    | error e => rw [hbody] at h; exact absurd h (by simp)
    | ok s2 =>
      rw [hbody] at h
      exact (ih (i + 1) s2 s1 h).trans (hb s i s2 hbody)

theorem repeatM_keeps {σ α : Type} (body : σ → Except Fault σ) (f : σ → α)
    (hb : ∀ s s1, body s = .ok s1 → f s1 = f s) :
    ∀ (n : Nat) (s s1 : σ), repeatM body n s = .ok s1 → f s1 = f s := by
  intro n
  induction n with
  | zero =>
    intro s s1 h
    simp only [repeatM, Except.ok.injEq] at h
    rw [h]
  | succ n ih =>
    intro s s1 h
    simp only [repeatM] at h
    cases hbody : body s with
    | error e => rw [hbody] at h; exact absurd h (by simp)
    | ok s2 =>
      rw [hbody] at h
      exact (ih s2 s1 h).trans (hb s s2 hbody)

theorem countBody_keeps (s : Locals) (i : Nat) (s1 : Locals) (h : countBody s i = .ok s1) :
    (s1.inputIsArr, s1.passes, s1.div) = (s.inputIsArr, s.passes, s.div) := by
  unfold countBody at h
  simp only at h
  repeat' split at h
  all_goals (cases h <;> rfl)

theorem fixBody_keeps (s : Locals) (i : Nat) (s1 : Locals) (h : fixBody s i = .ok s1) :
    (s1.inputIsArr, s1.passes, s1.div) = (s.inputIsArr, s.passes, s.div) := by
  unfold fixBody at h
  repeat' split at h
  all_goals (cases h <;> rfl)

theorem moveBody_keeps (s s1 : Locals) (h : moveBody s = .ok s1) :
    (s1.inputIsArr, s1.passes, s1.div) = (s.inputIsArr, s.passes, s.div) := by
  unfold moveBody at h
  simp only at h
  repeat' split at h
  all_goals (cases h <;> (unfold Locals.setOutput; split <;> rfl))

theorem pass_frame (s s1 : Locals) (h : pass s = .ok s1) :
    s1.inputIsArr = (!s.inputIsArr) ∧ s1.passes = s.passes ++ [s.div] ∧ s1.div = s.div := by
  unfold pass at h
  split at h
  · exact absurd h (by simp)
  · rename_i a hc
    split at h
    · exact absurd h (by simp)
    · rename_i b hf
      split at h
      · exact absurd h (by simp)
      · rename_i c hm
        have h1 := forM_keeps countBody (fun t => (t.inputIsArr, t.passes, t.div))
          countBody_keeps _ _ _ _ hc
        have h2 := forM_keeps fixBody (fun t => (t.inputIsArr, t.passes, t.div))
          fixBody_keeps _ _ _ _ hf
        have h3 := repeatM_keeps moveBody (fun t => (t.inputIsArr, t.passes, t.div))
          moveBody_keeps _ _ _ hm
        simp only [Prod.mk.injEq] at h1 h2 h3
        simp only [Except.ok.injEq] at h
        subst h
        obtain ⟨h1a, h1b, h1c⟩ := h1
        obtain ⟨h2a, h2b, h2c⟩ := h2
        obtain ⟨h3a, h3b, h3c⟩ := h3
        refine ⟨?_, ?_, ?_⟩
        · simp only [h3a, h2a, h1a]
        · simp only [h3b, h2b, h1b, h3c, h2c, h1c]
        · simp only [h3c, h2c, h1c]

theorem loop_parity (fuel : Nat) : ∀ (s s1 : Locals), loop fuel s = .ok s1 →
    (s.inputIsArr = true ↔ s.passes.length % 2 = 0) →
    (s1.inputIsArr = true ↔ s1.passes.length % 2 = 0) := by
  induction fuel with
  | zero => intro s s1 h; exact absurd h (by simp [loop])
  | succ f ih =>
    intro s s1 h hs
    unfold loop at h
    split at h
    · split at h
      · rename_i s2 hp
        obtain ⟨ha, hb, _⟩ := pass_frame s s2 hp
        refine ih _ s1 h ?_
        simp only [ha, hb, List.length_append, List.length_singleton]
        cases hia : s.inputIsArr with
        | true =>
          have := hs.mp hia
          simp; omega
        | false =>
          have : ¬ (s.passes.length % 2 = 0) := fun hc => by
            have := hs.mpr hc
            rw [hia] at this
            exact absurd this (by simp)
          simp; omega
      · exact absurd h (by simp)
    · simp only [Except.ok.injEq] at h
      subst h
      exact hs

/-- The model `log10` of `(int) log10((double) v)` is the integer part of the
base-10 logarithm for every value below `10 ^ 20`, so for every `uint64_t`. -/
theorem log10_eq_log (v : Nat) (hv : v < 10 ^ 20) : log10 v = Nat.log 10 v := by
  rcases Nat.eq_zero_or_pos v with h0 | hpos
  · subst h0
    rw [Nat.log_zero_right]
    rfl
  · have hne : v ≠ 0 := by omega
    have hL : Nat.log 10 v < 20 := Nat.log_lt_of_lt_pow hne hv
    have hrw : log10 v
        = ((List.range 20).filter (fun k => decide (k + 1 ≤ Nat.log 10 v))).length := by
      unfold log10
      congr 2
      funext k
      rw [decide_eq_decide]
      exact Nat.pow_le_iff_le_log (by norm_num) hne
    rw [hrw]
    generalize Nat.log 10 v = L at hL
    interval_cases L <;> rfl

theorem forM_fault {σ : Type} (body : σ → Nat → Except Fault σ)
    (hb : ∀ s i, body s i ≠ .error .outOfFuel) :
    ∀ (n i : Nat) (s : σ), forM body n i s ≠ .error .outOfFuel := by
  intro n
  induction n with
  | zero => intro i s; simp [forM]
  | succ n ih =>
    intro i s
    simp only [forM]
    cases hbody : body s i with
    | error e =>
      intro h
      cases h
      exact hb s i hbody
    | ok s2 => exact ih (i + 1) s2

theorem repeatM_fault {σ : Type} (body : σ → Except Fault σ)
    (hb : ∀ s, body s ≠ .error .outOfFuel) :
    ∀ (n : Nat) (s : σ), repeatM body n s ≠ .error .outOfFuel := by
  intro n
  induction n with
  | zero => intro s; simp [repeatM]
  | succ n ih =>
    intro s
    simp only [repeatM]
    cases hbody : body s with
    | error e =>
      intro h
      cases h
      exact hb s hbody
    | ok s2 => exact ih s2

theorem readAt_fault (v : List Nat) (i : Nat) : readAt v i ≠ .error .outOfFuel := by
  unfold readAt
  split <;> simp

theorem writeAt_fault (v : List Nat) (i x : Nat) : writeAt v i x ≠ .error .outOfFuel := by
  unfold writeAt
  split <;> simp

theorem countBody_fault (s : Locals) (i : Nat) : countBody s i ≠ .error .outOfFuel := by
  intro h
  unfold countBody at h
  simp only at h
  repeat' split at h
  all_goals first
    | (cases h; done)
    | (rename_i e he; cases h; exact readAt_fault _ _ he)

theorem fixBody_fault (s : Locals) (i : Nat) : fixBody s i ≠ .error .outOfFuel := by
  intro h
  unfold fixBody at h
  repeat' split at h
  all_goals (cases h)

theorem moveBody_fault (s : Locals) : moveBody s ≠ .error .outOfFuel := by
  intro h
  unfold moveBody at h
  simp only at h
  repeat' split at h
  all_goals first
    | (cases h; done)
    | (rename_i e he; cases h; exact readAt_fault _ _ he)
    | (rename_i e he; cases h; exact writeAt_fault _ _ _ he)

theorem pass_fault (s : Locals) : pass s ≠ .error .outOfFuel := by
  intro h
  unfold pass at h
  split at h
  · rename_i e he
    cases h
    exact forM_fault countBody countBody_fault _ _ _ he
  · split at h
    · rename_i e he
      cases h
      exact forM_fault fixBody fixBody_fault _ _ _ he
    · split at h
      · rename_i e he
        cases h
        exact repeatM_fault moveBody moveBody_fault _ _ he
      · cases h

theorem moveBody_arr_length (s s1 : Locals) (h : moveBody s = .ok s1) :
    s1.arr.length = s.arr.length := by
  unfold moveBody at h
  simp only at h
  split at h
  · cases h
  · split at h
    · cases h
    · split at h
      · cases h
      · split at h
        · cases h
        · rename_i out hout
          cases h
          unfold writeAt at hout
          split at hout
          · cases hout
            unfold Locals.setOutput Locals.output
            split <;> simp
          · cases hout

theorem pass_arr_length (s s1 : Locals) (h : pass s = .ok s1) :
    s1.arr.length = s.arr.length := by
  unfold pass at h
  split at h
  · cases h
  · rename_i a hc
    split at h
    · cases h
    · rename_i b hf
      split at h
      · cases h
      · rename_i c hm
        have h1 := forM_keeps countBody (fun t => t.arr.length)
          (fun t i t1 ht => by
            unfold countBody at ht
            simp only at ht
            repeat' split at ht
            all_goals (cases ht <;> rfl)) _ _ _ _ hc
        have h2 := forM_keeps fixBody (fun t => t.arr.length)
          (fun t i t1 ht => by
            unfold fixBody at ht
            repeat' split at ht
            all_goals (cases ht <;> rfl)) _ _ _ _ hf
        have h3 := repeatM_keeps moveBody (fun t => t.arr.length) moveBody_arr_length _ _ _ hm
        cases h
        simp only at h1 h2 h3 ⊢
        omega

theorem pass_div_zero (s : Locals) (hdiv : s.div = 0) (hn : 1 ≤ s.arr.length) (s1 : Locals) :
    pass s ≠ .ok s1 := by
  obtain ⟨m, hm⟩ : ∃ m, s.arr.length = m + 1 := ⟨s.arr.length - 1, by omega⟩
  have hcount : ∀ t : Locals, t.div = 0 → ∃ e, countBody t 0 = .error e := by
    intro t ht
    unfold countBody
    cases readAt t.input 0 with
    | error e => exact ⟨e, rfl⟩
    | ok val =>
      refine ⟨.divideByZero, ?_⟩
      simp only
      split <;> simp [ht]
  obtain ⟨e, he⟩ := hcount { s with count_ := List.replicate 10 0 } hdiv
  intro h
  unfold pass at h
  rw [hm] at h
  simp only [forM, he] at h
  cases h

theorem loop_fault (j : Nat) : ∀ (fuel : Nat) (s : Locals), 1 ≤ s.arr.length →
    s.div < 2 ^ 32 → (s.div * 10 ^ j) % 2 ^ 32 = 0 → j < fuel →
    ∀ e, loop fuel s = .error e → e.fault ≠ .outOfFuel := by
  induction j with
  | zero =>
    intro fuel s hn hlt hz hf e he
    obtain ⟨f, rfl⟩ : ∃ f, fuel = f + 1 := ⟨fuel - 1, by omega⟩
    have hdiv : s.div = 0 := by
      rw [pow_zero, mul_one, Nat.mod_eq_of_lt hlt] at hz
      exact hz
    unfold loop at he
    split at he
    · split at he
      · rename_i s1 hp
        exact absurd hp (pass_div_zero s hdiv hn s1)
      · rename_i e1 hp
        cases he
        exact fun h => pass_fault s (by rw [hp]; exact congrArg Except.error h)
    · cases he
  | succ j ih =>
    intro fuel s hn hlt hz hf e he
    obtain ⟨f, rfl⟩ : ∃ f, fuel = f + 1 := ⟨fuel - 1, by omega⟩
    unfold loop at he
    split at he
    · split at he
      · rename_i s1 hp
        obtain ⟨_, _, hdiv⟩ := pass_frame s s1 hp
        have hlen := pass_arr_length s s1 hp
        refine ih f _ ?_ ?_ ?_ (by omega) e he
        · simp only; omega
        · exact Nat.mod_lt _ (by norm_num)
        · simp only [hdiv]
          rw [Nat.mod_mul_mod, mul_assoc, ← pow_succ']
          exact hz
      · rename_i e1 hp
        cases he
        exact fun h => pass_fault s (by rw [hp]; exact congrArg Except.error h)
    · cases he

/-- Member `count_` is overwritten before it is read: the outcome of `sort` is the same
for every prior content. -/
theorem sort_count_irrelevant (count_ : List Nat) (A : List Nat) :
    sort count_ A = sort [] A := by
  have hp : pass (init count_ A) = pass (init [] A) := rfl
  have ht : (init count_ A).div < 10 ^ (init count_ A).radix := by
    show 1 < 10 ^ 1
    decide
  have ht2 : (init [] A).div < 10 ^ (init [] A).radix := by
    show 1 < 10 ^ 1
    decide
  unfold sort passBudget
  rw [loop, loop, if_pos ht, if_pos ht2, hp]
  cases pass (init [] A) <;> rfl

/-- The pass budget of `sort` is never the reason for a fault: in every run
the radix loop reaches its exit or faults within the budget. -/
theorem radix_budget_adequate (count_ : List Nat) (A : List Nat) :
    sort count_ A ≠ .error .outOfFuel := by
  cases A with
  | nil =>
    rw [sort_count_irrelevant]
    intro h
    cases h
  | cons x t =>
    intro h
    unfold sort at h
    split at h
    · cases h
    · rename_i e he
      have := loop_fault 32 passBudget (init count_ (x :: t)) (by simp [init])
        (by simp [init]) (by simp [init]) (by decide) e he
      injection h with h
      exact this h

set_option maxRecDepth 100000 in
/-- C1 (defect in the code). On the one-element vector `[1000000000]` the call
`RadixSort::sort` does not return: `radix` is 10, the 32-bit `div` never reaches
`10 ^ 10`, and after 32 passes `div` is `10 ^ 32 % 2 ^ 32 = 0`, so that the
digit extraction `(val / div) % 10` of the 33rd pass divides by zero. -/
theorem sort_ten_digit_value_faults (count_ : List Nat) :
    sort count_ [1000000000] = .error .divideByZero
    ∧ loop passBudget (init (List.replicate 10 0) [1000000000])
        = .error
            { fault := .divideByZero
              locals :=
                { arr := [1000000000], sorted := [1000000000], inputIsArr := true,
                  radix := 10, maxval := 1000000000, idx := 18446744073709551615, div := 0,
                  count_ := [0, 1, 1, 1, 1, 1, 1, 1, 1, 1],
                  passes := [1, 10, 100, 1000, 10000, 100000, 1000000, 10000000, 100000000,
                    1000000000, 1410065408, 1215752192, 3567587328, 1316134912, 276447232,
                    2764472320, 1874919424, 1569325056, 2808348672, 2313682944, 1661992960,
                    3735027712, 2990538752, 4135583744, 2701131776, 1241513984, 3825205248,
                    3892314112, 268435456, 2684354560, 1073741824, 2147483648] } } := by
  refine ⟨?_, ?_⟩
  · rw [sort_count_irrelevant]
    rfl
  · rfl

set_option maxRecDepth 100000 in
/-- C5 (defect in the code). On `[1000000000]` the largest element has
`numDigits = 10` digits and the first ten passes use the divisors
`1, 10, ..., 10 ^ 9`, but the loop does not stop there: with a budget of ten
passes it is still running, because at the test after the tenth pass `div` is
`10 ^ 10 % 2 ^ 32 = 1410065408`, below `10 ^ radix`; so an eleventh pass starts,
and the call ends in a division by zero instead of returning. -/
theorem sort_passes_exceed_numDigits :
    log10 1000000000 + 1 = 10
    ∧ loop 10 (init (List.replicate 10 0) [1000000000])
        = .error
            { fault := .outOfFuel
              locals :=
                { arr := [1000000000], sorted := [1000000000], inputIsArr := true,
                  radix := 10, maxval := 1000000000, idx := 18446744073709551615,
                  div := 1410065408, count_ := [0, 0, 1, 1, 1, 1, 1, 1, 1, 1],
                  passes := [1, 10, 100, 1000, 10000, 100000, 1000000, 10000000, 100000000,
                    1000000000] } }
    ∧ (1410065408 : Nat) < 10 ^ 10
    ∧ sort (List.replicate 10 0) [1000000000] = .error .divideByZero := by
  refine ⟨rfl, rfl, by decide, rfl⟩

/-- C6. When `RadixSort::sort(arr)` returns, the caller's vector `arr` holds the
returned sequence, and that sequence is the vector `pinput` points to after the
last swap, which is the output buffer of the last pass: the local vector
`sorted` when the number of passes is odd (as for `[5, 3]`, one pass), the
vector `arr` itself when it is even (as for `[10, 5]`, two passes). -/
theorem sort_arr_is_last_output (count_ : List Nat) (A : List Nat) (r : Result)
    (h : sort count_ A = .ok r) :
    r.arr = r.returned
    ∧ (∃ s, loop passBudget (init count_ A) = .ok s ∧ r.passes = s.passes
        ∧ r.returned = s.input
        ∧ (r.passes.length % 2 = 1 → s.inputIsArr = false ∧ r.arr = s.sorted)
        ∧ (r.passes.length % 2 = 0 → s.inputIsArr = true ∧ r.arr = s.arr))
    ∧ sort count_ [5, 3] = .ok { returned := [3, 5], arr := [3, 5],
                                 count_ := [0, 0, 0, 0, 1, 1, 2, 2, 2, 2], passes := [1] }
    ∧ sort count_ [10, 5] = .ok { returned := [5, 10], arr := [5, 10],
                                  count_ := [0, 1, 2, 2, 2, 2, 2, 2, 2, 2], passes := [1, 10] } := by
  refine ⟨?_, ?_, ?_, ?_⟩
  · unfold sort at h
    split at h
    · cases h; rfl
    · exact absurd h (by simp)
  · unfold sort at h
    split at h
    · rename_i s hs
      cases h
      have hpar := loop_parity passBudget (init count_ A) s hs (by simp [init])
      refine ⟨s, hs, rfl, ?_, ?_, ?_⟩
      · simp only [finish, Locals.input]
        split <;> rfl
      · intro hodd
        have hfalse : s.inputIsArr = false := by
          cases hia : s.inputIsArr with
          | false => rfl
          | true =>
            have := hpar.mp hia
            simp only [finish] at hodd
            omega
        exact ⟨hfalse, by simp [finish, Locals.input, hfalse]⟩
      · intro heven
        have htrue : s.inputIsArr = true := hpar.mpr (by simpa [finish] using heven)
        exact ⟨htrue, by simp [finish, htrue]⟩
    · exact absurd h (by simp)
  · rw [sort_count_irrelevant]
    rfl
  · rw [sort_count_irrelevant]
    rfl

/-- Witness for C6 with one pass (odd): the theorem applied to the run on `[5, 3]`. -/
theorem sort_arr_is_last_output_witness :
    sort (List.replicate 10 0) [5, 3]
        = .ok { returned := [3, 5], arr := [3, 5],
                count_ := [0, 0, 0, 0, 1, 1, 2, 2, 2, 2], passes := [1] }
    ∧ ([3, 5] : List Nat) = [3, 5]
    ∧ ∃ s, loop passBudget (init (List.replicate 10 0) [5, 3]) = .ok s ∧ [1] = s.passes
        ∧ [3, 5] = s.input
        ∧ (1 % 2 = 1 → s.inputIsArr = false ∧ [3, 5] = s.sorted)
        ∧ (1 % 2 = 0 → s.inputIsArr = true ∧ [3, 5] = s.arr) :=
  ⟨rfl, (sort_arr_is_last_output (List.replicate 10 0) [5, 3] _ rfl).1,
    (sort_arr_is_last_output (List.replicate 10 0) [5, 3] _ rfl).2.1⟩

end RadixSort

/-! ## Both algorithms -/

/-- A one-element vector is left as it is by `BubbleSort::sort`. -/
theorem BubbleSort.sort_singleton (swapped_ : Bool) (x : Nat) :
    BubbleSort.sort swapped_ [x] = .ok { returned := [x], arr := [x], swapped_ := false } := by
  simp [BubbleSort.sort, BubbleSort.doWhile, BubbleSort.forLoop]

/-- The empty vector is returned by `RadixSort::sort` after one pass that touches
no element. -/
theorem RadixSort.sort_nil (count_ : List Nat) :
    RadixSort.sort count_ []
      = .ok { returned := [], arr := [], count_ := List.replicate 10 0, passes := [1] } := by
  rw [RadixSort.sort_count_irrelevant]
  rfl

/-- C3 (defect in the code). `BubbleSort::sort` on the empty vector reads
`*itr` at `arr.begin()`, outside the vector, because `itr != arr.end()-1` holds
there; and `RadixSort::sort` on the one-element vector `[18446744073709551615]`
ends in a division by zero instead of returning it. -/
theorem sort_small_inputs_fault (swapped_ : Bool) (count_ : List Nat) :
    BubbleSort.sort swapped_ [] = .error .outOfRange
    ∧ BubbleSort.forLoop 1 0 { arr := [], swapped_ := false } = .error .outOfRange
    ∧ RadixSort.sort count_ [18446744073709551615] = .error .divideByZero := by
  refine ⟨?_, rfl, ?_⟩
  · cases swapped_ <;> rfl
  · rw [RadixSort.sort_count_irrelevant]
    rfl

/-- C4 (defect in the code). The two algorithms do not agree on every vector: on
`[1000000000]` bubble sort returns the vector while radix sort ends in a
division by zero, and on the empty vector radix sort returns it while bubble
sort reads outside the vector. -/
theorem radix_bubble_disagree (swapped_ : Bool) (count_ : List Nat) :
    RadixSort.sort count_ [1000000000] = .error .divideByZero
    ∧ BubbleSort.sort swapped_ [1000000000]
        = .ok { returned := [1000000000], arr := [1000000000], swapped_ := false }
    ∧ RadixSort.sort count_ []
        = .ok { returned := [], arr := [], count_ := List.replicate 10 0, passes := [1] }
    ∧ BubbleSort.sort swapped_ [] = .error .outOfRange := by
  refine ⟨?_, BubbleSort.sort_singleton _ _, RadixSort.sort_nil _, ?_⟩
  · rw [RadixSort.sort_count_irrelevant]
    rfl
  · cases swapped_ <;> rfl


/-! ## The loader -/

namespace SortAlgorithm

theorem instanceApiFor_frame (P : Platform) (st : Process) (name : String) :
    (instanceApiFor P st name).1.functionMap_ = st.functionMap_
    ∧ (instanceApiFor P st name).1.createCalls = st.createCalls
    ∧ (instanceApiFor P st name).1.destroyCalls = st.destroyCalls
    ∧ (instanceApiFor P st name).1.dlopenCalls = st.dlopenCalls ++ [libname P name] := by
  unfold instanceApiFor
  simp only
  split
  · exact ⟨rfl, rfl, rfl, rfl⟩
  · split <;> exact ⟨rfl, rfl, rfl, rfl⟩

theorem instanceApiFor_ok (P : Platform) (st : Process) (name : String)
    (hopen : P.dlopen (libname P name) ≠ 0)
    (hc : P.dlsym (P.dlopen (libname P name)) "create" ≠ 0)
    (hd : P.dlsym (P.dlopen (libname P name)) "destroy" ≠ 0) :
    instanceApiFor P st name
      = ({ st with dlopenCalls := st.dlopenCalls ++ [libname P name] },
          .ok { create_ := P.dlsym (P.dlopen (libname P name)) "create",
                destroy_ := P.dlsym (P.dlopen (libname P name)) "destroy" }) := by
  unfold instanceApiFor
  simp only [hopen, hc, hd, if_false, or_self]

theorem instanceApiFor_closed (P : Platform) (st : Process) (name : String)
    (hopen : P.dlopen (libname P name) = 0) :
    instanceApiFor P st name
      = ({ st with dlopenCalls := st.dlopenCalls ++ [libname P name] }, .error .exception) := by
  unfold instanceApiFor
  simp only [hopen, if_true]

theorem instanceApiFor_missing (P : Platform) (st : Process) (name : String)
    (hopen : P.dlopen (libname P name) ≠ 0)
    (hmiss : P.dlsym (P.dlopen (libname P name)) "create" = 0
      ∨ P.dlsym (P.dlopen (libname P name)) "destroy" = 0) :
    instanceApiFor P st name
      = ({ st with dlopenCalls := st.dlopenCalls ++ [libname P name] }, .error .exception) := by
  unfold instanceApiFor
  simp only [hopen, hmiss, if_false, if_true]

theorem instanceApiFor_nonnull (P : Platform) (st : Process) (name : String) (f : LibFunctions)
    (h : (instanceApiFor P st name).2 = .ok f) : f.create_ ≠ 0 ∧ f.destroy_ ≠ 0 := by
  unfold instanceApiFor at h
  simp only at h
  split at h
  · exact absurd h (by simp)
  · split at h
    · exact absurd h (by simp)
    · rename_i hnn
      simp only [Except.ok.injEq] at h
      subst h
      exact not_or.mp hnn

theorem create_functionMap (P : Platform) (st : Process) (name : String) :
    (create P st name).1.functionMap_ = st.functionMap_ := by
  have h := (instanceApiFor_frame P st name).1
  unfold create
  split
  · rename_i st1 e heq
    rw [heq] at h; exact h
  · rename_i st1 f heq
    rw [heq] at h; exact h

theorem destroy_functionMap (P : Platform) (st : Process) (obj : Option SortAlgorithm) :
    (destroy P st obj).1.functionMap_ = st.functionMap_ := by
  unfold destroy
  split
  · rfl
  · rename_i o
    have h := (instanceApiFor_frame P st o.typeName).1
    split
    · rename_i st1 e heq
      rw [heq] at h; exact h
    · rename_i st1 f heq
      rw [heq] at h; exact h

theorem create_dlopenCalls_irrelevant (P : Platform) (st : Process) (log : List String)
    (name : String) :
    (create P { st with dlopenCalls := log } name).2 = (create P st name).2
    ∧ (create P { st with dlopenCalls := log } name).1.createCalls
        = (create P st name).1.createCalls
    ∧ (create P { st with dlopenCalls := log } name).1.functionMap_
        = (create P st name).1.functionMap_ := by
  by_cases hopen : P.dlopen (libname P name) = 0
  · simp [create, instanceApiFor_closed P _ name hopen]
  · by_cases hmiss : P.dlsym (P.dlopen (libname P name)) "create" = 0
        ∨ P.dlsym (P.dlopen (libname P name)) "destroy" = 0
    · simp [create, instanceApiFor_missing P _ name hopen hmiss]
    · have hc := (not_or.mp hmiss).1
      have hd := (not_or.mp hmiss).2
      simp [create, instanceApiFor_ok P _ name hopen hc hd]

theorem run_functionMap (P : Platform) (calls : List Call) :
    (Process.run P calls).functionMap_ = [] := by
  have key : ∀ (cs : List Call) (st : Process), st.functionMap_ = [] →
      (cs.foldl (Process.step P) st).functionMap_ = [] := by
    intro cs
    induction cs with
    | nil => intro st h; exact h
    | cons c cs ih =>
      intro st h
      simp only [List.foldl_cons]
      apply ih
      cases c with
      | create name => simp only [Process.step]; rw [create_functionMap]; exact h
      | destroy obj => simp only [Process.step]; rw [destroy_functionMap]; exact h
  exact key calls Process.start rfl

/-- C7, the claim as stated fails. On the example platform, two successful
`create("radix")` calls followed by `destroy` on the first handle call `dlopen`
for `libradix.so` three times, not once, and `functionMap_` is still empty: no
call was served from it. -/
theorem create_twice_one_load_counterexample :
    createTwiceThenDestroy demoPlatform Process.start "radix" true
        = some { functionMap_ := []
                 dlopenCalls := ["libradix.so", "libradix.so", "libradix.so"]
                 createCalls := [100, 100]
                 destroyCalls := [(101, { typeName_ := "radix", allocatedBy := 100 })] }
    ∧ ¬ (["libradix.so", "libradix.so", "libradix.so"].count "libradix.so" = 1) :=
  ⟨rfl, by decide⟩

/-- C7 as amended. For a name whose module opens and exports both entry points,
two successive `create(name)` calls and a following `destroy` on either handle
all succeed and call the module loader once each, three `dlopen` calls for that
name in all; `functionMap_` is left as it was, so from start-up it stays empty. -/
theorem create_twice_destroy_loads_each_time (P : Platform) (st : Process) (name : String)
    (useFirst : Bool)
    (hopen : P.dlopen (libname P name) ≠ 0)
    (hc : P.dlsym (P.dlopen (libname P name)) "create" ≠ 0)
    (hd : P.dlsym (P.dlopen (libname P name)) "destroy" ≠ 0) :
    ∃ st3, createTwiceThenDestroy P st name useFirst = some st3
      ∧ st3.dlopenCalls = st.dlopenCalls ++ [libname P name, libname P name, libname P name]
      ∧ st3.dlopenCalls.count (libname P name) = st.dlopenCalls.count (libname P name) + 3
      ∧ st3.functionMap_ = st.functionMap_
      ∧ (st = Process.start → st3.functionMap_ = []) := by
  have hcount : (st.dlopenCalls ++ [libname P name, libname P name, libname P name]).count
      (libname P name) = st.dlopenCalls.count (libname P name) + 3 := by
    simp [List.count_append]
  cases useFirst <;>
    simp [createTwiceThenDestroy, create, destroy, instanceApiFor_ok P _ name hopen hc hd,
      setTypeName, typeName, hcount] <;>
    intro h <;> rw [h] <;> rfl

/-- Witness for C7 as amended: the example platform and the name `radix`. -/
theorem create_twice_destroy_loads_each_time_witness :
    demoPlatform.dlopen (libname demoPlatform "radix") ≠ 0
    ∧ ∃ st3, createTwiceThenDestroy demoPlatform Process.start "radix" false = some st3
      ∧ st3.dlopenCalls = Process.start.dlopenCalls
          ++ [libname demoPlatform "radix", libname demoPlatform "radix",
              libname demoPlatform "radix"]
      ∧ st3.dlopenCalls.count (libname demoPlatform "radix")
          = Process.start.dlopenCalls.count (libname demoPlatform "radix") + 3
      ∧ st3.functionMap_ = Process.start.functionMap_
      ∧ (Process.start = Process.start → st3.functionMap_ = []) :=
  ⟨by decide, create_twice_destroy_loads_each_time demoPlatform Process.start "radix" false
    (by decide) (by decide) (by decide)⟩

/-- C8. For every name whose module opens and exports both entry points, and in
every state of the process (so on the first call and on every later one),
`create(name)` calls the factory of that module once and returns the object
that call produced, with `typeName` equal to `name`; a second `create(name)`
right after the first does the same. -/
theorem create_returns_factory_instance (P : Platform) (st : Process) (name : String)
    (hopen : P.dlopen (libname P name) ≠ 0)
    (hc : P.dlsym (P.dlopen (libname P name)) "create" ≠ 0)
    (hd : P.dlsym (P.dlopen (libname P name)) "destroy" ≠ 0) :
    (create P st name).2
        = .ok ((P.construct (P.dlsym (P.dlopen (libname P name)) "create")).setTypeName name)
    ∧ (create P st name).1.createCalls
        = st.createCalls ++ [P.dlsym (P.dlopen (libname P name)) "create"]
    ∧ (∀ obj, (create P st name).2 = .ok obj → obj.typeName = name)
    ∧ (create P (create P st name).1 name).2
        = .ok ((P.construct (P.dlsym (P.dlopen (libname P name)) "create")).setTypeName name)
    ∧ (∀ obj, (create P (create P st name).1 name).2 = .ok obj → obj.typeName = name) := by
  have h1 : ∀ st0 : Process, (create P st0 name).2
      = .ok ((P.construct (P.dlsym (P.dlopen (libname P name)) "create")).setTypeName name) := by
    intro st0
    simp [create, instanceApiFor_ok P st0 name hopen hc hd]
  have h2 : ∀ st0 : Process, ∀ obj, (create P st0 name).2 = .ok obj → obj.typeName = name := by
    intro st0 obj hobj
    rw [h1 st0] at hobj
    cases hobj
    rfl
  refine ⟨h1 st, ?_, h2 st, h1 _, h2 _⟩
  simp [create, instanceApiFor_ok P st name hopen hc hd]

/-- Witness for C8: the example platform and the name `bubble`. -/
theorem create_returns_factory_instance_witness :
    demoPlatform.dlopen (libname demoPlatform "bubble") ≠ 0
    ∧ (create demoPlatform Process.start "bubble").2
        = .ok { typeName_ := "bubble", allocatedBy := 200 } :=
  ⟨by decide, (create_returns_factory_instance demoPlatform Process.start "bubble"
    (by decide) (by decide) (by decide)).1⟩

/-- C9. For every name whose module cannot be located or opened, `create(name)`
throws: no object is returned, no factory is called, and `functionMap_` is left
exactly as it was, so without an entry for the name if it had none and in
particular in every state reached from start-up; a later `create` with any other
name returns what it would have returned without the failed call, with the same
factory calls and the same `functionMap_`. -/
theorem create_module_not_found (P : Platform) (st : Process) (name : String)
    (hopen : P.dlopen (libname P name) = 0) :
    (create P st name).2 = .error .exception
    ∧ (create P st name).1.createCalls = st.createCalls
    ∧ (create P st name).1.functionMap_ = st.functionMap_
    ∧ (st.functionMap_.lookup name = none →
        (create P st name).1.functionMap_.lookup name = none)
    ∧ (∀ calls, (create P (Process.run P calls) name).1.functionMap_.lookup name = none)
    ∧ (∀ other, (create P (create P st name).1 other).2 = (create P st other).2
        ∧ (create P (create P st name).1 other).1.createCalls
            = (create P st other).1.createCalls
        ∧ (create P (create P st name).1 other).1.functionMap_
            = (create P st other).1.functionMap_) := by
  have hst : (create P st name).1
      = { st with dlopenCalls := st.dlopenCalls ++ [libname P name] } := by
    simp [create, instanceApiFor_closed P st name hopen]
  refine ⟨?_, ?_, ?_, ?_, ?_, ?_⟩
  · simp [create, instanceApiFor_closed P st name hopen]
  · rw [hst]
  · rw [hst]
  · intro h; rw [hst]; exact h
  · intro calls
    rw [create_functionMap, run_functionMap]
    rfl
  · intro other
    rw [hst]
    exact create_dlopenCalls_irrelevant P st _ other

/-- Witness for C9: the example platform has no module for the name `quick`. -/
theorem create_module_not_found_witness :
    demoPlatform.dlopen (libname demoPlatform "quick") = 0
    ∧ (create demoPlatform Process.start "quick").2 = .error .exception
    ∧ (create demoPlatform Process.start "quick").1.createCalls = [] :=
  ⟨by decide, (create_module_not_found demoPlatform Process.start "quick" (by decide)).1,
    (create_module_not_found demoPlatform Process.start "quick" (by decide)).2.1⟩

/-- C10. When the module for a name opens but lacks the factory symbol, the
destructor symbol, or both, `create(name)` throws, calls no factory and leaves
`functionMap_` as it was. Every pair that `instanceApiFor` returns has both
pointers non-null, and so has every pair held in `functionMap_` in a state
reached from start-up. -/
theorem create_entry_point_missing (P : Platform) (st : Process) (name : String)
    (hopen : P.dlopen (libname P name) ≠ 0)
    (hmiss : P.dlsym (P.dlopen (libname P name)) "create" = 0
      ∨ P.dlsym (P.dlopen (libname P name)) "destroy" = 0) :
    (create P st name).2 = .error .exception
    ∧ (create P st name).1.createCalls = st.createCalls
    ∧ (create P st name).1.functionMap_ = st.functionMap_
    ∧ (∀ st0 name0 f, (instanceApiFor P st0 name0).2 = .ok f →
        f.create_ ≠ 0 ∧ f.destroy_ ≠ 0)
    ∧ (∀ calls, ∀ e ∈ (Process.run P calls).functionMap_,
        e.2.create_ ≠ 0 ∧ e.2.destroy_ ≠ 0) := by
  refine ⟨?_, ?_, ?_, ?_, ?_⟩
  · simp [create, instanceApiFor_missing P st name hopen hmiss]
  · simp [create, instanceApiFor_missing P st name hopen hmiss]
  · exact create_functionMap P st name
  · intro st0 name0 f hf
    exact instanceApiFor_nonnull P st0 name0 f hf
  · intro calls e he
    rw [run_functionMap] at he
    exact absurd he (List.not_mem_nil e)

/-- Witness for C10: on the example platform the module for `nofactory` opens and
exports `destroy` only. -/
theorem create_entry_point_missing_witness :
    demoPlatform.dlopen (libname demoPlatform "nofactory") ≠ 0
    ∧ (demoPlatform.dlsym (demoPlatform.dlopen (libname demoPlatform "nofactory")) "create" = 0
      ∨ demoPlatform.dlsym (demoPlatform.dlopen (libname demoPlatform "nofactory")) "destroy" = 0)
    ∧ (create demoPlatform Process.start "nofactory").2 = .error .exception :=
  ⟨by decide, by decide,
    (create_entry_point_missing demoPlatform Process.start "nofactory"
      (by decide) (by decide)).1⟩

end SortAlgorithm

/-! ## RadixSort: the counting pass and the radix loop -/

namespace RadixSort

theorem digit_lt (div v : Nat) : digit div v < 10 :=
  Nat.mod_lt _ (by norm_num)

theorem offset_succ (div : Nat) (inp : List Nat) (d : Nat) :
    offset div inp (d + 1) = offset div inp d + (bucket div inp d).length := by
  induction inp with
  | nil => rfl
  | cons v l ih =>
    simp only [offset, bucket, List.countP_cons, List.filter_cons] at ih ⊢
    rcases Nat.lt_trichotomy (digit div v) d with h | h | h
    · have e1 : decide (digit div v < d + 1) = true := by simp; omega
      have e2 : decide (digit div v < d) = true := by simp; omega
      have e3 : decide (digit div v = d) = false := by simp; omega
      rw [e1, e2, e3]
      simp only [if_true, Bool.false_eq_true, if_false]
      omega
    · have e1 : decide (digit div v < d + 1) = true := by simp; omega
      have e2 : decide (digit div v < d) = false := by simp; omega
      have e3 : decide (digit div v = d) = true := by simp; omega
      rw [e1, e2, e3]
      simp only [if_true, Bool.false_eq_true, if_false, List.length_cons]
      omega
    · have e1 : decide (digit div v < d + 1) = false := by simp; omega
      have e2 : decide (digit div v < d) = false := by simp; omega
      have e3 : decide (digit div v = d) = false := by simp; omega
      rw [e1, e2, e3]
      simp only [Bool.false_eq_true, if_false]
      omega

theorem offset_mono (div : Nat) (inp : List Nat) {d e : Nat} (h : d ≤ e) :
    offset div inp d ≤ offset div inp e := by
  unfold offset
  apply List.countP_mono_left
  intro x _ hx
  simp only [decide_eq_true_eq] at hx ⊢
  omega

theorem offset_ten (div : Nat) (inp : List Nat) : offset div inp 10 = inp.length := by
  unfold offset
  rw [List.countP_eq_length]
  intro a _
  simpa using digit_lt div a

theorem offset_add_le (div : Nat) (inp : List Nat) {d : Nat} (hd : d < 10) :
    offset div inp d + (bucket div inp d).length ≤ inp.length := by
  rw [← offset_succ, ← offset_ten div inp]
  exact offset_mono div inp (by omega)

theorem seg_lt (div : Nat) (inp : List Nat) {d e j : Nat} (hde : d < e)
    (hj : j < (bucket div inp d).length) : offset div inp d + j < offset div inp e := by
  have h1 := offset_succ div inp d
  have h2 := offset_mono div inp (show d + 1 ≤ e by omega)
  omega

theorem seg_inj (div : Nat) (inp : List Nat) {d e j k : Nat}
    (hj : j < (bucket div inp d).length) (hk : k < (bucket div inp e).length)
    (h : offset div inp d + j = offset div inp e + k) : d = e ∧ j = k := by
  rcases Nat.lt_trichotomy d e with hde | hde | hde
  · have := seg_lt div inp hde hj
    omega
  · subst hde
    exact ⟨rfl, by omega⟩
  · have := seg_lt div inp hde hk
    omega

theorem stable_prefix_length (div : Nat) (inp : List Nat) (k : Nat) :
    ((List.range k).flatMap (bucket div inp)).length = offset div inp k := by
  induction k with
  | zero => simp [offset]
  | succ k ih =>
    rw [List.range_succ, List.flatMap_append, List.length_append, ih, offset_succ]
    simp

theorem stable_length (div : Nat) (inp : List Nat) :
    (stableByDigit div inp).length = inp.length := by
  unfold stableByDigit
  rw [stable_prefix_length, offset_ten]

theorem stable_prefix_getElem (div : Nat) (inp : List Nat) (k : Nat) :
    ∀ d, d < k → ∀ j, j < (bucket div inp d).length →
      ((List.range k).flatMap (bucket div inp))[offset div inp d + j]?
        = (bucket div inp d)[j]? := by
  induction k with
  | zero => intro d hd; omega
  | succ k ih =>
    intro d hd j hj
    rw [List.range_succ, List.flatMap_append]
    by_cases hdk : d < k
    · rw [List.getElem?_append_left]
      · exact ih d hdk j hj
      · rw [stable_prefix_length]
        exact seg_lt div inp hdk hj
    · have hdk2 : d = k := by omega
      subst hdk2
      rw [List.getElem?_append_right]
      · rw [stable_prefix_length]
        simp
      · rw [stable_prefix_length]
        omega

theorem stable_getElem (div : Nat) (inp : List Nat) {d j : Nat} (hd : d < 10)
    (hj : j < (bucket div inp d).length) :
    (stableByDigit div inp)[offset div inp d + j]? = (bucket div inp d)[j]? :=
  stable_prefix_getElem div inp 10 d hd j hj

theorem stable_cover (div : Nat) (inp : List Nat) (k : Nat) :
    ∀ p, p < offset div inp k →
      ∃ d, d < k ∧ ∃ j, j < (bucket div inp d).length ∧ p = offset div inp d + j := by
  induction k with
  | zero => intro p hp; simp [offset] at hp
  | succ k ih =>
    intro p hp
    by_cases hpk : p < offset div inp k
    · obtain ⟨d, hd, j, hj, hpj⟩ := ih p hpk
      exact ⟨d, by omega, j, hj, hpj⟩
    · rw [offset_succ] at hp
      exact ⟨k, by omega, p - offset div inp k, by omega, by omega⟩

theorem eq_stable_of_getElem (div : Nat) (inp out : List Nat) (hlen : out.length = inp.length)
    (h : ∀ d, d < 10 → ∀ j, j < (bucket div inp d).length →
      out[offset div inp d + j]? = (bucket div inp d)[j]?) :
    out = stableByDigit div inp := by
  apply List.ext_getElem?
  intro p
  by_cases hp : p < inp.length
  · obtain ⟨d, hd, j, hj, rfl⟩ := stable_cover div inp 10 p (by rw [offset_ten]; exact hp)
    rw [h d hd j hj, stable_getElem div inp hd hj]
  · rw [List.getElem?_eq_none (by omega), List.getElem?_eq_none (by rw [stable_length]; omega)]

theorem mem_bucket {div : Nat} {inp : List Nat} {d x : Nat} (h : x ∈ bucket div inp d) :
    x ∈ inp ∧ digit div x = d := by
  unfold bucket at h
  rw [List.mem_filter] at h
  exact ⟨h.1, by simpa using h.2⟩

theorem filter_lt_succ_perm (div : Nat) (inp : List Nat) (k : Nat) :
    (inp.filter (fun v => decide (digit div v < k)) ++ bucket div inp k).Perm
      (inp.filter (fun v => decide (digit div v < k + 1))) := by
  induction inp with
  | nil => simp [bucket]
  | cons v l ih =>
    simp only [bucket, List.filter_cons] at ih ⊢
    rcases Nat.lt_trichotomy (digit div v) k with h | h | h
    · have e1 : decide (digit div v < k + 1) = true := by simp; omega
      have e2 : decide (digit div v < k) = true := by simp; omega
      have e3 : decide (digit div v = k) = false := by simp; omega
      rw [e1, e2, e3]
      simp only [if_true, Bool.false_eq_true, if_false, List.cons_append]
      exact ih.cons v
    · have e1 : decide (digit div v < k + 1) = true := by simp; omega
      have e2 : decide (digit div v < k) = false := by simp; omega
      have e3 : decide (digit div v = k) = true := by simp; omega
      rw [e1, e2, e3]
      simp only [if_true, Bool.false_eq_true, if_false]
      exact List.perm_middle.trans (ih.cons v)
    · have e1 : decide (digit div v < k + 1) = false := by simp; omega
      have e2 : decide (digit div v < k) = false := by simp; omega
      have e3 : decide (digit div v = k) = false := by simp; omega
      rw [e1, e2, e3]
      simp only [Bool.false_eq_true, if_false]
      exact ih

theorem stable_prefix_perm (div : Nat) (inp : List Nat) (k : Nat) :
    ((List.range k).flatMap (bucket div inp)).Perm
      (inp.filter (fun v => decide (digit div v < k))) := by
  induction k with
  | zero => simp
  | succ k ih =>
    rw [List.range_succ, List.flatMap_append]
    have h1 : ([k].flatMap (bucket div inp)) = bucket div inp k := by simp
    rw [h1]
    exact (ih.append_right _).trans (filter_lt_succ_perm div inp k)

theorem stable_perm (div : Nat) (inp : List Nat) : (stableByDigit div inp).Perm inp := by
  have h := stable_prefix_perm div inp 10
  have h2 : inp.filter (fun v => decide (digit div v < 10)) = inp := by
    rw [List.filter_eq_self]
    intro a _
    simpa using digit_lt div a
  rw [h2] at h
  exact h

theorem stable_pairwise_lex (div : Nat) (inp : List Nat) (R : Nat → Nat → Prop)
    (h : inp.Pairwise R) :
    (stableByDigit div inp).Pairwise
      (fun a b => digit div a < digit div b ∨ (digit div a = digit div b ∧ R a b)) := by
  unfold stableByDigit
  rw [List.pairwise_flatMap]
  constructor
  · intro d _
    have hsub : (bucket div inp d).Pairwise R :=
      List.Pairwise.sublist (List.filter_sublist inp) h
    refine List.Pairwise.imp_of_mem ?_ hsub
    intro a b ha hb hab
    exact Or.inr ⟨by rw [(mem_bucket ha).2, (mem_bucket hb).2], hab⟩
  · refine List.Pairwise.imp ?_ (List.pairwise_lt_range 10)
    intro d e hde x hx y hy
    left
    rw [(mem_bucket hx).2, (mem_bucket hy).2]
    exact hde

theorem stable_sorted (div : Nat) (inp : List Nat) :
    (stableByDigit div inp).Pairwise (fun a b => digit div a ≤ digit div b) := by
  have h := stable_pairwise_lex div inp (fun _ _ => True)
    (List.pairwise_of_forall (fun _ _ => trivial))
  refine List.Pairwise.imp ?_ h
  intro a b hab
  rcases hab with h1 | ⟨h1, _⟩ <;> omega

theorem stable_prefix_filter (div : Nat) (inp : List Nat) (d k : Nat) :
    ((List.range k).flatMap (bucket div inp)).filter (fun v => decide (digit div v = d))
      = if d < k then bucket div inp d else [] := by
  induction k with
  | zero => simp
  | succ k ih =>
    rw [List.range_succ, List.flatMap_append, List.filter_append, ih]
    have h1 : ([k].flatMap (bucket div inp)) = bucket div inp k := by simp
    rw [h1]
    by_cases hdk : d < k
    · have h2 : (bucket div inp k).filter (fun v => decide (digit div v = d)) = [] := by
        rw [List.filter_eq_nil_iff]
        intro a ha
        have := (mem_bucket ha).2
        simp only [decide_eq_true_eq]
        omega
      rw [h2, if_pos hdk, if_pos (by omega)]
      simp
    · rw [if_neg hdk]
      by_cases hdk2 : d = k
      · subst hdk2
        have h2 : (bucket div inp d).filter (fun v => decide (digit div v = d))
            = bucket div inp d := by
          rw [List.filter_eq_self]
          intro a ha
          simpa using (mem_bucket ha).2
        rw [h2, if_pos (by omega)]
        simp
      · have h2 : (bucket div inp k).filter (fun v => decide (digit div v = d)) = [] := by
          rw [List.filter_eq_nil_iff]
          intro a ha
          have := (mem_bucket ha).2
          simp only [decide_eq_true_eq]
          omega
        rw [h2, if_neg (by omega)]
        simp

theorem stable_filter (div : Nat) (inp : List Nat) (d : Nat) :
    (stableByDigit div inp).filter (fun v => decide (digit div v = d)) = bucket div inp d := by
  unfold stableByDigit
  rw [stable_prefix_filter]
  by_cases hd : d < 10
  · rw [if_pos hd]
  · rw [if_neg hd]
    symm
    unfold bucket
    rw [List.filter_eq_nil_iff]
    intro a _
    have := digit_lt div a
    simp only [decide_eq_true_eq]
    omega

theorem digit_mod (div v : Nat) : ((v / div) % 10) % 2 ^ 8 = digit div v := by
  unfold digit
  exact Nat.mod_eq_of_lt (by have := Nat.mod_lt (v / div) (show 10 > 0 by norm_num); omega)

theorem countBody_eq (s : Locals) (i v c : Nat) (hv : s.input[i]? = some v) (hdiv : s.div ≠ 0)
    (hc : s.count_[digit s.div v]? = some c) (hi : i + 1 ≤ 2147483647) :
    countBody s i = .ok { s with
      radix := (scanStep s.div (s.radix, s.maxval) v).1
      maxval := (scanStep s.div (s.radix, s.maxval) v).2
      count_ := s.count_.set (digit s.div v) ((c + 1) % 2 ^ 32) } := by
  have hi2 : ¬ (i + 1 > 2147483647) := by omega
  unfold countBody readAt scanStep
  by_cases hcond : s.div = 1 ∧ v > s.maxval
  · simp only [hv, hcond, and_self, if_true, hdiv, if_false, digit_mod, hc, hi2]
    simp [hcond.1] at hdiv ⊢
    simp only [hcond.1] at hc
    simp [digit_mod, hc, hi2]
  · simp only [hv, hcond, if_false, hdiv, digit_mod, hc, hi2]

theorem bucket_take_succ (div : Nat) (inp : List Nat) (i v d : Nat) (hv : inp[i]? = some v) :
    (bucket div (inp.take (i + 1)) d).length
      = (bucket div (inp.take i) d).length + (if digit div v = d then 1 else 0) := by
  rw [List.take_succ, hv]
  unfold bucket
  rw [List.filter_append, List.length_append]
  by_cases h : digit div v = d <;> simp [h]

theorem bucket_length_le (div : Nat) (inp : List Nat) (d : Nat) :
    (bucket div inp d).length ≤ inp.length :=
  List.length_filter_le _ _

theorem bucket_take_le (div : Nat) (inp : List Nat) (i d : Nat) :
    (bucket div (inp.take i) d).length ≤ (bucket div inp d).length := by
  unfold bucket
  exact List.Sublist.length_le (List.Sublist.filter _ (List.take_sublist i inp))

theorem count_loop (k : Nat) : ∀ (i : Nat) (s : Locals),
    i + k = s.input.length → s.input.length ≤ 2147483647 → s.div ≠ 0 →
    s.count_.length = 10 →
    (∀ d, d < 10 → s.count_[d]? = some (bucket s.div (s.input.take i) d).length) →
    ∃ C, forM countBody k i s = .ok { s with
        radix := ((s.input.drop i).foldl (scanStep s.div) (s.radix, s.maxval)).1
        maxval := ((s.input.drop i).foldl (scanStep s.div) (s.radix, s.maxval)).2
        count_ := C }
      ∧ C.length = 10
      ∧ ∀ d, d < 10 → C[d]? = some (bucket s.div s.input d).length := by
  induction k with
  | zero =>
    intro i s hik _ _ hlen hcnt
    refine ⟨s.count_, ?_, hlen, ?_⟩
    · have hdrop : s.input.drop i = [] := List.drop_eq_nil_of_le (by omega)
      simp [forM, hdrop]
    · intro d hd
      have htake : s.input.take i = s.input := List.take_of_length_le (by omega)
      rw [hcnt d hd, htake]
  | succ k ih =>
    intro i s hik hn hdiv hlen hcnt
    have hi : i < s.input.length := by omega
    have hv : s.input[i]? = some s.input[i] := List.getElem?_eq_getElem hi
    have hdig := digit_lt s.div s.input[i]
    have hc := hcnt _ hdig
    have hbody := countBody_eq s i _ _ hv hdiv hc (by omega)
    have hdrop : s.input.drop i = s.input[i] :: s.input.drop (i + 1) :=
      List.drop_eq_getElem_cons hi
    obtain ⟨C, hC1, hC2, hC3⟩ := ih (i + 1)
      { s with
        radix := (scanStep s.div (s.radix, s.maxval) s.input[i]).1
        maxval := (scanStep s.div (s.radix, s.maxval) s.input[i]).2
        count_ := s.count_.set (digit s.div s.input[i])
          (((bucket s.div (List.take i s.input) (digit s.div s.input[i])).length + 1) % 2 ^ 32) }
      (by
        show i + 1 + k = s.input.length
        omega) (by
        show s.input.length ≤ 2147483647
        exact hn) (by
        show s.div ≠ 0
        exact hdiv) (by
        show (s.count_.set _ _).length = 10
        simp [hlen]) (by
        show ∀ d, d < 10 → (s.count_.set _ _)[d]? = some (bucket s.div (s.input.take (i + 1)) d).length
        intro d hd
        rw [bucket_take_succ s.div s.input i _ d hv, List.getElem?_set]
        have hle := bucket_take_le s.div s.input (i + 1) (digit s.div s.input[i])
        have hle2 := bucket_length_le s.div s.input (digit s.div s.input[i])
        rw [bucket_take_succ s.div s.input i _ _ hv] at hle
        simp only [if_true] at hle
        by_cases hdd : digit s.div s.input[i] = d
        · subst hdd
          simp only [if_true, hlen, hd]
          rw [Nat.mod_eq_of_lt (by omega)]
        · simp only [hdd, if_false]
          rw [hcnt d hd]
          rfl)
    refine ⟨C, ?_, hC2, hC3⟩
    simp only [forM, hbody]
    rw [hC1, hdrop]
    rfl

theorem fixBody_eq (s : Locals) (j c p : Nat) (hc : s.count_[j]? = some c)
    (hp : s.count_[j - 1]? = some p) :
    fixBody s j = .ok { s with count_ := s.count_.set j ((c + p) % 2 ^ 32) } := by
  unfold fixBody readAt
  simp only [hc, hp]

theorem fix_loop (div : Nat) (inp : List Nat) (k : Nat) : ∀ (j : Nat) (s : Locals),
    j + k = 10 → 1 ≤ j → s.count_.length = 10 → inp.length < 2 ^ 32 →
    (∀ d, d < j → s.count_[d]? = some (offset div inp (d + 1))) →
    (∀ d, j ≤ d → d < 10 → s.count_[d]? = some (bucket div inp d).length) →
    ∃ C, forM fixBody k j s = .ok { s with count_ := C } ∧ C.length = 10
      ∧ ∀ d, d < 10 → C[d]? = some (offset div inp (d + 1)) := by
  induction k with
  | zero =>
    intro j s hjk _ hlen _ hlow _
    exact ⟨s.count_, by simp [forM], hlen, fun d hd => hlow d (by omega)⟩
  | succ k ih =>
    intro j s hjk hj hlen hn hlow hhigh
    have hc := hhigh j (le_refl j) (by omega)
    have hp := hlow (j - 1) (by omega)
    rw [show j - 1 + 1 = j by omega] at hp
    have hbody := fixBody_eq s j _ _ hc hp
    have hsum : (bucket div inp j).length + offset div inp j = offset div inp (j + 1) := by
      rw [offset_succ]; omega
    have hbound : offset div inp (j + 1) < 2 ^ 32 := by
      have := offset_mono div inp (show j + 1 ≤ 10 by omega)
      rw [offset_ten] at this
      omega
    obtain ⟨C, hC1, hC2, hC3⟩ := ih (j + 1)
      { s with
        count_ := s.count_.set j (((bucket div inp j).length + offset div inp j) % 2 ^ 32) }
      (by omega) (by omega) (by
        show (s.count_.set _ _).length = 10
        simp [hlen]) hn (by
        intro d hd
        show (s.count_.set _ _)[d]? = _
        rw [List.getElem?_set]
        by_cases hjd : j = d
        · subst hjd
          simp only [if_true, hlen, show j < 10 by omega]
          rw [hsum, Nat.mod_eq_of_lt hbound]
        · simp only [hjd, if_false]
          exact hlow d (by omega)) (by
        intro d hd1 hd2
        show (s.count_.set _ _)[d]? = _
        rw [List.getElem?_set_ne (by omega)]
        exact hhigh d (by omega) hd2)
    refine ⟨C, ?_, hC2, hC3⟩
    simp only [forM, hbody]
    rw [hC1]

theorem bucket_getElem_take (div : Nat) (inp : List Nat) (i v : Nat) (hv : inp[i]? = some v) :
    (bucket div inp (digit div v))[(bucket div (inp.take i) (digit div v)).length]? = some v := by
  have hi : i < inp.length := by
    rcases Nat.lt_or_ge i inp.length with h | h
    · exact h
    · rw [List.getElem?_eq_none h] at hv
      exact absurd hv (by simp)
  have hsplit : inp = inp.take i ++ v :: inp.drop (i + 1) := by
    have h1 := List.take_append_drop i inp
    rw [List.drop_eq_getElem_cons hi] at h1
    have h2 : inp[i] = v := by
      rw [List.getElem?_eq_getElem hi] at hv
      exact Option.some.inj hv
    rw [h2] at h1
    exact h1.symm
  have hb : bucket div inp (digit div v)
      = bucket div (inp.take i) (digit div v) ++ v :: bucket div (inp.drop (i + 1)) (digit div v) := by
    conv => lhs; rw [hsplit]
    unfold bucket
    rw [List.filter_append, List.filter_cons]
    simp
  rw [hb, List.getElem?_append_right (le_refl _)]
  simp

theorem input_setOutput (s : Locals) (o C : List Nat) (I : Nat) :
    Locals.input { s.setOutput o with count_ := C, idx := I } = s.input := by
  unfold Locals.input Locals.setOutput
  cases h : s.inputIsArr <;> simp [h]

theorem output_setOutput (s : Locals) (o C : List Nat) (I : Nat) :
    Locals.output { s.setOutput o with count_ := C, idx := I } = o := by
  unfold Locals.output Locals.setOutput
  cases h : s.inputIsArr <;> simp [h]

theorem frame_setOutput (s : Locals) (o C : List Nat) (I : Nat) :
    ({ s.setOutput o with count_ := C, idx := I } : Locals).div = s.div
    ∧ ({ s.setOutput o with count_ := C, idx := I } : Locals).inputIsArr = s.inputIsArr
    ∧ ({ s.setOutput o with count_ := C, idx := I } : Locals).radix = s.radix
    ∧ ({ s.setOutput o with count_ := C, idx := I } : Locals).maxval = s.maxval
    ∧ ({ s.setOutput o with count_ := C, idx := I } : Locals).passes = s.passes
    ∧ ({ s.setOutput o with count_ := C, idx := I } : Locals).count_ = C
    ∧ ({ s.setOutput o with count_ := C, idx := I } : Locals).idx = I := by
  unfold Locals.setOutput
  cases h : s.inputIsArr <;> simp [h]

theorem moveBody_eq (s : Locals) (v c : Nat) (hv : s.input[s.idx]? = some v) (hdiv : s.div ≠ 0)
    (hc : s.count_[digit s.div v]? = some (c + 1)) (hc2 : c + 1 < 2 ^ 32)
    (hpos : c < s.output.length) :
    moveBody s = .ok { s.setOutput (s.output.set c v) with
        count_ := s.count_.set (digit s.div v) c
        idx := (s.idx + 2 ^ 64 - 1) % 2 ^ 64 }
    ∧ placement s = some c := by
  have hmod : (c + 1 + 2 ^ 32 - 1) % 2 ^ 32 = c := by
    rw [show c + 1 + 2 ^ 32 - 1 = c + 2 ^ 32 by omega, Nat.add_mod_right]
    exact Nat.mod_eq_of_lt (by omega)
  constructor
  · unfold moveBody readAt writeAt
    simp only [hv, hdiv, if_false, digit_mod, hc, hmod, hpos, if_true]
  · unfold placement readAt
    simp only [hv, digit_mod, hc, hmod]

theorem move_loop (div : Nat) (inp : List Nat) (hdiv : div ≠ 0) (hn : inp.length < 2 ^ 32)
    (m : Nat) : ∀ s : Locals, m ≤ inp.length → s.input = inp → s.div = div →
    s.output.length = inp.length → s.idx = (m + 2 ^ 64 - 1) % 2 ^ 64 →
    (∀ d, d < 10 →
      s.count_[d]? = some (offset div inp d + (bucket div (inp.take m) d).length)) →
    ∃ s1, repeatM moveBody m s = .ok s1
      ∧ s1.input = inp ∧ s1.div = div ∧ s1.inputIsArr = s.inputIsArr ∧ s1.radix = s.radix
      ∧ s1.maxval = s.maxval ∧ s1.passes = s.passes
      ∧ s1.output.length = inp.length
      ∧ (∀ d, d < 10 → ∀ j, j < (bucket div (inp.take m) d).length →
          s1.output[offset div inp d + j]? = (bucket div inp d)[j]?)
      ∧ (∀ p, (∀ d, d < 10 → ∀ j, j < (bucket div (inp.take m) d).length →
          p ≠ offset div inp d + j) → s1.output[p]? = s.output[p]?)
      ∧ (moveTrace m s).length = m ∧ (moveTrace m s).Nodup
      ∧ (∀ q ∈ moveTrace m s, ∃ d, d < 10 ∧ ∃ j, j < (bucket div (inp.take m) d).length
          ∧ q = offset div inp d + j) := by
  induction m with
  | zero =>
    intro s _ hin hd _ _ _
    refine ⟨s, rfl, hin, hd, rfl, rfl, rfl, rfl, ?_, ?_, ?_, rfl, List.nodup_nil, ?_⟩
    · assumption
    · intro d _ j hj
      simp [bucket] at hj
    · intro p _
      rfl
    · intro q hq
      simp [moveTrace] at hq
  | succ m ih =>
    intro s hm hin hd hout hidx hcnt
    have hi : m < inp.length := by omega
    have hidx2 : s.idx = m := by
      rw [hidx, show m + 1 + 2 ^ 64 - 1 = m + 2 ^ 64 by omega, Nat.add_mod_right]
      exact Nat.mod_eq_of_lt (by omega)
    have hv0 : inp[m]? = some inp[m] := List.getElem?_eq_getElem hi
    have hv : s.input[s.idx]? = some inp[m] := by rw [hin, hidx2]; exact hv0
    have hdig := digit_lt div inp[m]
    have htk : ∀ e, (bucket div (inp.take (m + 1)) e).length
        = (bucket div (inp.take m) e).length + (if digit div inp[m] = e then 1 else 0) :=
      fun e => bucket_take_succ div inp m _ e hv0
    have hle := bucket_take_le div inp (m + 1) (digit div inp[m])
    have hadd := offset_add_le div inp hdig
    have htd := htk (digit div inp[m])
    simp only [if_true] at htd
    have hc : s.count_[digit s.div inp[m]]?
        = some (offset div inp (digit div inp[m])
            + (bucket div (inp.take m) (digit div inp[m])).length + 1) := by
      rw [hd, hcnt _ hdig, htd]
      rfl
    obtain ⟨hbody, hplace⟩ := moveBody_eq s inp[m] _ hv (by rw [hd]; exact hdiv) hc
      (by omega) (by rw [hout]; omega)
    obtain ⟨s1, h1, h2, h3, h4, h5, h6, h7, h8, h9, h10, h11, h12, h13⟩ := ih
      { s.setOutput (s.output.set (offset div inp (digit div inp[m])
            + (bucket div (inp.take m) (digit div inp[m])).length) inp[m]) with
        count_ := s.count_.set (digit s.div inp[m]) (offset div inp (digit div inp[m])
            + (bucket div (inp.take m) (digit div inp[m])).length)
        idx := (s.idx + 2 ^ 64 - 1) % 2 ^ 64 }
      (by omega)
      (by rw [input_setOutput]; exact hin)
      (by rw [(frame_setOutput _ _ _ _).1]; exact hd)
      (by rw [output_setOutput, List.length_set]; exact hout)
      (by rw [(frame_setOutput _ _ _ _).2.2.2.2.2.2, hidx2])
      (by
        intro e he
        rw [(frame_setOutput _ _ _ _).2.2.2.2.2.1, List.getElem?_set, hd]
        by_cases hde : digit div inp[m] = e
        · subst hde
          have hlen : digit div inp[m] < s.count_.length := by
            rcases Nat.lt_or_ge (digit div inp[m]) s.count_.length with h | h
            · exact h
            · have := hcnt _ hdig
              rw [List.getElem?_eq_none h] at this
              exact absurd this (by simp)
          simp only [if_true, hlen]
        · simp only [hde, if_false]
          rw [hcnt e he, htk e]
          simp [hde])
    have hf := frame_setOutput s (s.output.set (offset div inp (digit div inp[m])
            + (bucket div (inp.take m) (digit div inp[m])).length) inp[m])
        (s.count_.set (digit s.div inp[m]) (offset div inp (digit div inp[m])
            + (bucket div (inp.take m) (digit div inp[m])).length))
        ((s.idx + 2 ^ 64 - 1) % 2 ^ 64)
    rw [hf.2.1] at h4
    rw [hf.2.2.1] at h5
    rw [hf.2.2.2.1] at h6
    rw [hf.2.2.2.2.1] at h7
    rw [output_setOutput] at h10
    have hnotin : ∀ e, e < 10 → ∀ j, j < (bucket div (inp.take m) e).length →
        offset div inp (digit div inp[m]) + (bucket div (inp.take m) (digit div inp[m])).length
          ≠ offset div inp e + j := by
      intro e _ j hj heq
      obtain ⟨he1, he2⟩ := seg_inj div inp
        (show (bucket div (inp.take m) (digit div inp[m])).length
          < (bucket div inp (digit div inp[m])).length by omega)
        (show j < (bucket div inp e).length by
          have := bucket_take_le div inp m e
          omega) heq
      subst he1
      omega
    refine ⟨s1, ?_, h2, h3, h4, h5, h6, h7, h8, ?_, ?_, ?_, ?_, ?_⟩
    · simp only [repeatM, hbody]
      exact h1
    · intro e he j hj
      rw [htk e] at hj
      by_cases hj2 : j < (bucket div (inp.take m) e).length
      · exact h9 e he j hj2
      · have hde : digit div inp[m] = e := by
          by_contra hne
          simp only [hne, if_false] at hj
          omega
        subst hde
        simp only [if_true] at hj
        have hj3 : j = (bucket div (inp.take m) (digit div inp[m])).length := by omega
        subst hj3
        rw [h10 _ hnotin, List.getElem?_set_self (by rw [hout]; omega)]
        exact (bucket_getElem_take div inp m _ hv0).symm
    · intro p hp
      have hp1 : ∀ e, e < 10 → ∀ j, j < (bucket div (inp.take m) e).length →
          p ≠ offset div inp e + j := by
        intro e he j hj
        exact hp e he j (by rw [htk e]; omega)
      have hp2 : offset div inp (digit div inp[m])
          + (bucket div (inp.take m) (digit div inp[m])).length ≠ p := by
        intro heq
        exact hp _ hdig _ (by omega) heq.symm
      rw [h10 p hp1, List.getElem?_set_ne hp2]
    · simp only [moveTrace, hplace, hbody, List.length_cons, h11]
    · simp only [moveTrace, hplace, hbody, List.nodup_cons]
      refine ⟨?_, h12⟩
      intro hmem
      obtain ⟨e, he, j, hj, heq⟩ := h13 _ hmem
      exact hnotin e he j hj heq
    · intro q hq
      simp only [moveTrace, hplace, hbody, List.mem_cons] at hq
      rcases hq with hq | hq
      · exact ⟨_, hdig, _, by omega, hq⟩
      · obtain ⟨e, he, j, hj, heq⟩ := h13 q hq
        exact ⟨e, he, j, by rw [htk e]; omega, heq⟩

theorem offset_zero (div : Nat) (inp : List Nat) : offset div inp 0 = 0 := by
  unfold offset
  rw [List.countP_eq_zero]
  intro a _
  simp

theorem input_length (s : Locals) (hlen : s.sorted.length = s.arr.length) :
    s.input.length = s.arr.length := by
  unfold Locals.input
  split
  · rfl
  · exact hlen

theorem output_length (s : Locals) (hlen : s.sorted.length = s.arr.length) :
    s.output.length = s.arr.length := by
  unfold Locals.output
  split
  · exact hlen
  · rfl

/-- One pass with a non-zero divisor over buffers of equal length below `2 ^ 31`
returns, and writes into the output buffer the stable counting sort of the input
buffer; every placement index lies inside the buffer and none is used twice. -/
theorem pass_spec (s : Locals) (hdiv : s.div ≠ 0) (hlen : s.sorted.length = s.arr.length)
    (hn : s.arr.length ≤ 2147483647) :
    ∃ s1, pass s = .ok s1
      ∧ s1.input = stableByDigit s.div s.input
      ∧ s1.output = s.input
      ∧ s1.inputIsArr = (!s.inputIsArr)
      ∧ s1.div = s.div
      ∧ s1.passes = s.passes ++ [s.div]
      ∧ s1.radix = (s.input.foldl (scanStep s.div) (s.radix, s.maxval)).1
      ∧ s1.maxval = (s.input.foldl (scanStep s.div) (s.radix, s.maxval)).2
      ∧ (placements s).length = s.arr.length ∧ (placements s).Nodup
      ∧ (∀ q ∈ placements s, q < s.arr.length) := by
  have hin := input_length s hlen
  have hout := output_length s hlen
  -- counting loop
  obtain ⟨C, hC1, hC2, hC3⟩ := count_loop s.arr.length 0 { s with count_ := List.replicate 10 0 }
    (by show 0 + s.arr.length = s.input.length; omega)
    (by show s.input.length ≤ 2147483647; omega)
    hdiv (by simp)
    (by
      intro d hd
      show (List.replicate 10 0)[d]? = _
      rw [List.getElem?_replicate]
      simp [bucket, hd])
  obtain ⟨sA, hsA⟩ : ∃ sA : Locals, sA = { s with
      radix := (s.input.foldl (scanStep s.div) (s.radix, s.maxval)).1
      maxval := (s.input.foldl (scanStep s.div) (s.radix, s.maxval)).2
      count_ := C } := ⟨_, rfl⟩
  have hC1a : forM countBody s.arr.length 0 { s with count_ := List.replicate 10 0 }
      = .ok sA := by rw [hsA]; exact hC1
  -- prefix sums
  obtain ⟨C2, hF1, _, hF3⟩ := fix_loop s.div s.input 9 1 sA
    (by omega) (by omega) (by rw [hsA]; exact hC2) (by omega)
    (by
      intro d hd
      have hd0 : d = 0 := by omega
      subst hd0
      rw [hsA]
      show C[0]? = _
      rw [hC3 0 (by omega), offset_succ, offset_zero]
      simp
      rfl)
    (by
      intro d _ hd
      rw [hsA]
      exact hC3 d hd)
  obtain ⟨sB, hsB⟩ : ∃ sB : Locals, sB = { sA with count_ := C2 } := ⟨_, rfl⟩
  have hF1a : forM fixBody 9 1 sA = .ok sB := by rw [hsB]; exact hF1
  have hBin : sB.input = s.input := by rw [hsB, hsA]; rfl
  -- move loop
  obtain ⟨sC, hsC⟩ : ∃ sC : Locals, sC = { sB with
      idx := (sB.input.length + 2 ^ 64 - 1) % 2 ^ 64 } := ⟨_, rfl⟩
  obtain ⟨s3, hM1, hM2, hM3, hM4, hM5, hM6, hM7, hM8, hM9, _, hM11, hM12, hM13⟩ :=
    move_loop s.div s.input hdiv (by omega) s.input.length sC
      (le_refl _) (by rw [hsC, hsB, hsA]; rfl) (by rw [hsC, hsB, hsA])
      (by rw [hsC, hsB, hsA]; show s.output.length = s.input.length; omega)
      (by rw [hsC, hBin])
      (by
        intro d hd
        rw [hsC, hsB]
        show C2[d]? = _
        rw [hF3 d hd, offset_succ, List.take_length])
  have hstable : s3.output = stableByDigit s.div s.input := by
    apply eq_stable_of_getElem s.div s.input s3.output hM8
    intro d hd j hj
    exact hM9 d hd j (by rw [List.take_length]; exact hj)
  have htoggle : ∀ (t : Locals) (P : List Nat),
      Locals.input { t with inputIsArr := !t.inputIsArr, passes := P } = t.output
      ∧ Locals.output { t with inputIsArr := !t.inputIsArr, passes := P } = t.input := by
    intro t P
    unfold Locals.input Locals.output
    cases h : t.inputIsArr <;> simp [h]
  have hpass : pass s = .ok { s3 with inputIsArr := !s3.inputIsArr,
                                      passes := s3.passes ++ [s3.div] } := by
    unfold pass
    rw [hC1a]
    simp only
    rw [hF1a]
    simp only
    rw [← hsC, hBin, hM1]
  have hplace : placements s = moveTrace s.input.length sC := by
    unfold placements
    rw [hC1a]
    simp only
    rw [hF1a]
    simp only
    rw [← hsC, hBin]
  refine ⟨_, hpass, ?_, ?_, ?_, hM3, ?_, ?_, ?_, ?_, ?_, ?_⟩
  · rw [(htoggle s3 _).1, hstable]
  · rw [(htoggle s3 _).2, hM2]
  · show (!s3.inputIsArr) = !s.inputIsArr
    rw [hM4, hsC, hsB, hsA]
  · show s3.passes ++ [s3.div] = s.passes ++ [s.div]
    rw [hM7, hM3, hsC, hsB, hsA]
  · show s3.radix = _
    rw [hM5, hsC, hsB, hsA]
  · show s3.maxval = _
    rw [hM6, hsC, hsB, hsA]
  · rw [hplace, hM11, hin]
  · rw [hplace]
    exact hM12
  · intro q hq
    rw [hplace] at hq
    obtain ⟨d, hd, j, hj, rfl⟩ := hM13 q hq
    rw [List.take_length] at hj
    have := offset_add_le s.div s.input hd
    omega

theorem pass_lengths (s s1 : Locals) (hlen : s.sorted.length = s.arr.length)
    (hin : s1.input = stableByDigit s.div s.input) (hout : s1.output = s.input) :
    s1.sorted.length = s1.arr.length ∧ s1.arr.length = s.arr.length := by
  have h1 : s1.input.length = s.arr.length := by
    rw [hin, stable_length, input_length s hlen]
  have h2 : s1.output.length = s.arr.length := by
    rw [hout, input_length s hlen]
  unfold Locals.input at h1
  unfold Locals.output at h2
  cases h : s1.inputIsArr <;> simp [h] at h1 h2 <;> omega

theorem scan_ne_one (div : Nat) (hdiv : div ≠ 1) (l : List Nat) (rm : Nat × Nat) :
    l.foldl (scanStep div) rm = rm := by
  induction l generalizing rm with
  | nil => rfl
  | cons v l ih =>
    rw [List.foldl_cons]
    have : scanStep div rm v = rm := by
      unfold scanStep
      simp [hdiv]
    rw [this, ih]

theorem log10_le (v : Nat) : log10 v ≤ 20 := by
  unfold log10
  exact (List.length_filter_le _ _).trans (by simp)

/-- The scan of the first pass: from `(radix, maxval)` describing the largest
value met so far, the fold leaves the largest value of the whole buffer and its
number of decimal digits. -/
theorem scan_spec (l : List Nat) : ∀ (r m : Nat),
    (m = 0 → r = 1) → (0 < m → r = log10 m + 1) →
    ((l.foldl (scanStep 1) (r, m)).2 = 0 → (l.foldl (scanStep 1) (r, m)).1 = 1)
    ∧ (0 < (l.foldl (scanStep 1) (r, m)).2 →
        (l.foldl (scanStep 1) (r, m)).1 = log10 (l.foldl (scanStep 1) (r, m)).2 + 1)
    ∧ m ≤ (l.foldl (scanStep 1) (r, m)).2
    ∧ (∀ x ∈ l, x ≤ (l.foldl (scanStep 1) (r, m)).2)
    ∧ ((l.foldl (scanStep 1) (r, m)).2 = m ∨ (l.foldl (scanStep 1) (r, m)).2 ∈ l) := by
  induction l with
  | nil =>
    intro r m h0 h1
    exact ⟨h0, h1, le_refl _, by simp, Or.inl rfl⟩
  | cons v l ih =>
    intro r m h0 h1
    rw [List.foldl_cons]
    by_cases hv : v > m
    · have hstep : scanStep 1 (r, m) v = (log10 v + 1, v) := by
        unfold scanStep
        have hpos : v > 0 := by omega
        have := log10_le v
        simp only [hv, hpos, and_self, if_true]
        rw [Nat.mod_eq_of_lt (by omega)]
      rw [hstep]
      obtain ⟨a, b, c, d, e⟩ := ih (log10 v + 1) v (by omega) (fun _ => rfl)
      refine ⟨a, b, by omega, ?_, ?_⟩
      · intro x hx
        rcases List.mem_cons.mp hx with hx | hx
        · omega
        · exact d x hx
      · right
        rcases e with e | e
        · rw [e]; exact List.mem_cons_self _ _
        · exact List.mem_cons_of_mem _ e
    · have hstep : scanStep 1 (r, m) v = (r, m) := by
        unfold scanStep
        simp [hv]
      rw [hstep]
      obtain ⟨a, b, c, d, e⟩ := ih r m h0 h1
      refine ⟨a, b, c, ?_, ?_⟩
      · intro x hx
        rcases List.mem_cons.mp hx with hx | hx
        · omega
        · exact d x hx
      · rcases e with e | e
        · exact Or.inl e
        · exact Or.inr (List.mem_cons_of_mem _ e)

theorem mod_succ_le (k a b : Nat)
    (h : digit (10 ^ k) a < digit (10 ^ k) b
      ∨ (digit (10 ^ k) a = digit (10 ^ k) b ∧ a % 10 ^ k ≤ b % 10 ^ k)) :
    a % 10 ^ (k + 1) ≤ b % 10 ^ (k + 1) := by
  rw [Nat.mod_pow_succ, Nat.mod_pow_succ]
  unfold digit at h
  have ha : a % 10 ^ k < 10 ^ k := Nat.mod_lt _ (by positivity)
  rcases h with h | ⟨h1, h2⟩
  · have h3 : 10 ^ k * (a / 10 ^ k % 10 + 1) ≤ 10 ^ k * (b / 10 ^ k % 10) :=
      Nat.mul_le_mul_left _ h
    rw [Nat.mul_add, Nat.mul_one] at h3
    omega
  · rw [h1]
    omega

/-- The passes after the first one, for values that fit the digit count: the
loop makes exactly `radix - k` more passes with the divisors `10 ^ k, ...`, never
wraps `div`, and leaves the input buffer ordered on the low `radix` digits. -/
theorem loop_sorted (j : Nat) : ∀ (k fuel : Nat) (s : Locals),
    k + j = s.radix → 1 ≤ k → s.radix ≤ 9 → s.div = 10 ^ k →
    s.sorted.length = s.arr.length → s.arr.length ≤ 2147483647 →
    s.input.Pairwise (fun a b => a % 10 ^ k ≤ b % 10 ^ k) →
    s.passes = (List.range k).map (fun i => 10 ^ i) → j < fuel →
    ∃ s1, loop fuel s = .ok s1 ∧ s1.input.Perm s.input
      ∧ s1.input.Pairwise (fun a b => a % 10 ^ s.radix ≤ b % 10 ^ s.radix)
      ∧ s1.passes = (List.range s.radix).map (fun i => 10 ^ i)
      ∧ s1.div = 10 ^ s.radix ∧ s1.radix = s.radix := by
  induction j with
  | zero =>
    intro k fuel s hk _ _ hdiv _ _ hpw hpass hf
    obtain ⟨f, rfl⟩ : ∃ f, fuel = f + 1 := ⟨fuel - 1, by omega⟩
    have hkr : k = s.radix := by omega
    refine ⟨s, ?_, List.Perm.refl _, ?_, ?_, ?_, rfl⟩
    · unfold loop
      rw [if_neg (by rw [hdiv, hkr]; exact Nat.lt_irrefl _)]
    · rw [← hkr]; exact hpw
    · rw [← hkr]; exact hpass
    · rw [← hkr]; exact hdiv
  | succ j ih =>
    intro k fuel s hk hk1 hr hdiv hlen hn hpw hpass hf
    obtain ⟨f, rfl⟩ : ∃ f, fuel = f + 1 := ⟨fuel - 1, by omega⟩
    have hdiv0 : s.div ≠ 0 := by rw [hdiv]; positivity
    have hdiv1 : s.div ≠ 1 := by
      rw [hdiv]
      have : 10 ^ 1 ≤ 10 ^ k := Nat.pow_le_pow_right (by norm_num) hk1
      omega
    have htest : s.div < 10 ^ s.radix := by
      rw [hdiv]
      exact Nat.pow_lt_pow_right (by norm_num) (by omega)
    obtain ⟨s1, hp, h1, h2, _, h4, h5, h6, _, _, _, _⟩ := pass_spec s hdiv0 hlen hn
    rw [scan_ne_one s.div hdiv1] at h6
    simp only at h6
    obtain ⟨hl1, hl2⟩ := pass_lengths s s1 hlen h1 h2
    have hpow : 10 ^ (k + 1) < 2 ^ 32 := by
      have : 10 ^ (k + 1) ≤ 10 ^ 9 := Nat.pow_le_pow_right (by norm_num) (by omega)
      have : (10 : Nat) ^ 9 < 2 ^ 32 := by norm_num
      omega
    have hnext : (s1.div * 10) % 2 ^ 32 = 10 ^ (k + 1) := by
      rw [h4, hdiv, ← pow_succ, Nat.mod_eq_of_lt hpow]
    obtain ⟨s2, g1, g2, g3, g4, g5, g6⟩ := ih (k + 1) f
      { s1 with div := (s1.div * 10) % 2 ^ 32 }
      (by show k + 1 + j = s1.radix; rw [h6]; omega) (by omega)
      (by show s1.radix ≤ 9; rw [h6]; exact hr)
      hnext hl1 (by rw [hl2]; exact hn)
      (by
        show s1.input.Pairwise _
        rw [h1, hdiv]
        refine List.Pairwise.imp ?_ (stable_pairwise_lex (10 ^ k) s.input _ hpw)
        intro a b hab
        exact mod_succ_le k a b hab)
      (by
        show s1.passes = _
        rw [h5, hpass, hdiv, List.range_succ, List.map_append]
        rfl)
      (by omega)
    have hr2 : ({ s1 with div := (s1.div * 10) % 2 ^ 32 } : Locals).radix = s.radix := h6
    rw [hr2] at g3 g4 g5 g6
    refine ⟨s2, ?_, ?_, g3, g4, g5, g6⟩
    · unfold loop
      rw [if_pos htest]
      simp only [hp]
      exact g1
    · refine g2.trans ?_
      show s1.input.Perm s.input
      rw [h1]
      exact stable_perm _ _

theorem finish_returned (s : Locals) :
    (finish s).returned = s.input ∧ (finish s).arr = s.input ∧ (finish s).passes = s.passes := by
  unfold finish Locals.input
  cases h : s.inputIsArr <;> simp [h]

/-- The first pass of a run: it is always made, with divisor 1, and it fixes
`radix` and `maxval` by its scan of the vector. -/
theorem first_pass (count_ : List Nat) (A : List Nat) (hn : A.length ≤ 2147483647) (f : Nat) :
    ∃ s1, pass (init count_ A) = .ok s1
      ∧ loop (f + 1) (init count_ A) = loop f { s1 with div := (s1.div * 10) % 2 ^ 32 }
      ∧ s1.input = stableByDigit 1 A
      ∧ s1.div = 1 ∧ s1.passes = [1]
      ∧ s1.radix = (A.foldl (scanStep 1) (1, 0)).1
      ∧ s1.maxval = (A.foldl (scanStep 1) (1, 0)).2
      ∧ s1.sorted.length = s1.arr.length ∧ s1.arr.length = A.length := by
  have hlen : (init count_ A).sorted.length = (init count_ A).arr.length := by
    simp [init]
  obtain ⟨s1, hp, h1, h2, _, h4, h5, h6, h7, _, _, _⟩ :=
    pass_spec (init count_ A) (by simp [init]) hlen hn
  obtain ⟨hl1, hl2⟩ := pass_lengths _ s1 hlen h1 h2
  refine ⟨s1, hp, ?_, h1, h4, h5, h6, h7, hl1, hl2⟩
  have htest : (init count_ A).div < 10 ^ (init count_ A).radix := by
    show 1 < 10 ^ 1
    norm_num
  rw [loop, if_pos htest]
  simp only [hp]

theorem digit_one (a : Nat) : digit 1 a = a % 10 ^ 1 := by
  unfold digit
  simp

/-- C16. For every vector of fewer than `2 ^ 31` elements, all below `10 ^ 9`
(the empty vector, vectors of equal values and vectors of zeros included), and
whatever the member `count_` holds, `RadixSort::sort` returns the non-decreasing
permutation of the vector after at least one and at most nine passes; the
divisors are the true powers `1, 10, 100, ...` and no update `div *= 10` reaches
`2 ^ 32`. -/
theorem sort_below_ten_pow_nine (count_ : List Nat) (A : List Nat)
    (hlen : A.length < 2 ^ 31) (hA : ∀ x ∈ A, x < 10 ^ 9) :
    ∃ r, sort count_ A = .ok r
      ∧ r.returned.Perm A ∧ r.returned.Sorted (· ≤ ·) ∧ r.arr = r.returned
      ∧ 1 ≤ r.passes.length ∧ r.passes.length ≤ 9
      ∧ r.passes = (List.range r.passes.length).map (fun k => 10 ^ k)
      ∧ (∀ d ∈ r.passes, d * 10 < 2 ^ 32) := by
  have hn : A.length ≤ 2147483647 := by omega
  obtain ⟨s1, _, hloop, h1, h4, h5, h6, _, hl1, hl2⟩ := first_pass count_ A hn 33
  obtain ⟨a, b, _, d, e⟩ := scan_spec A 1 0 (fun _ => rfl) (fun h => absurd h (by omega))
  rw [← h6] at a b
  -- the largest value and its number of digits
  have hM : (A.foldl (scanStep 1) (1, 0)).2 < 10 ^ 9 := by
    rcases e with e | e
    · rw [e]; norm_num
    · exact hA _ e
  have hR1 : 1 ≤ s1.radix := by
    rcases Nat.eq_zero_or_pos (A.foldl (scanStep 1) (1, 0)).2 with h0 | h0
    · rw [a h0]
    · rw [b h0]; omega
  have hR9 : s1.radix ≤ 9 := by
    rcases Nat.eq_zero_or_pos (A.foldl (scanStep 1) (1, 0)).2 with h0 | h0
    · rw [a h0]; omega
    · rw [b h0, log10_eq_log _ (hM.trans (by norm_num))]
      have := Nat.log_lt_of_lt_pow (by omega) hM
      omega
  have hfit : ∀ x ∈ A, x < 10 ^ s1.radix := by
    intro x hx
    have hxM := d x hx
    rcases Nat.eq_zero_or_pos (A.foldl (scanStep 1) (1, 0)).2 with h0 | h0
    · rw [a h0]; omega
    · rw [b h0, log10_eq_log _ (hM.trans (by norm_num))]
      have := Nat.lt_pow_succ_log_self (show 1 < 10 by norm_num)
        (A.foldl (scanStep 1) (1, 0)).2
      omega
  -- the remaining passes
  obtain ⟨s2, g1, g2, g3, g4, _, _⟩ := loop_sorted (s1.radix - 1) 1 33
    { s1 with div := (s1.div * 10) % 2 ^ 32 }
    (by show 1 + (s1.radix - 1) = s1.radix; omega) (le_refl 1) hR9
    (by show (s1.div * 10) % 2 ^ 32 = 10 ^ 1; rw [h4]; norm_num)
    hl1 (by rw [hl2]; exact hn)
    (by
      show s1.input.Pairwise _
      rw [h1]
      refine List.Pairwise.imp ?_ (stable_sorted 1 A)
      intro x y hxy
      rw [digit_one, digit_one] at hxy
      exact hxy)
    (by show s1.passes = _; rw [h5]; rfl)
    (by omega)
  have hperm : s2.input.Perm A := by
    refine g2.trans ?_
    show s1.input.Perm A
    rw [h1]
    exact stable_perm 1 A
  have hr : ({ s1 with div := (s1.div * 10) % 2 ^ 32 } : Locals).radix = s1.radix := rfl
  rw [hr] at g3 g4
  have hsort : sort count_ A = .ok (finish s2) := by
    unfold sort passBudget
    rw [hloop, g1]
  obtain ⟨f1, f2, f3⟩ := finish_returned s2
  refine ⟨finish s2, hsort, ?_, ?_, ?_, ?_, ?_, ?_, ?_⟩
  · rw [f1]; exact hperm
  · rw [f1]
    refine List.Pairwise.imp_of_mem ?_ g3
    intro x y hx hy hxy
    rw [Nat.mod_eq_of_lt (hfit x (hperm.subset hx)),
      Nat.mod_eq_of_lt (hfit y (hperm.subset hy))] at hxy
    exact hxy
  · rw [f1, f2]
  · rw [f3, g4]; simp; exact hR1
  · rw [f3, g4]; simp; exact hR9
  · rw [f3, g4]; simp
  · intro dv hdv
    rw [f3, g4, List.mem_map] at hdv
    obtain ⟨k, hk, rfl⟩ := hdv
    rw [List.mem_range] at hk
    have : 10 ^ k * 10 ≤ 10 ^ 9 := by
      rw [← pow_succ]
      exact Nat.pow_le_pow_right (by norm_num) (by omega)
    have : (10 : Nat) ^ 9 < 2 ^ 32 := by norm_num
    omega

end RadixSort


namespace RadixSort

/-- Witness for C16: the theorem applied to the vector `[302, 7, 45, 7, 0]`. -/
theorem sort_below_ten_pow_nine_witness :
    ([302, 7, 45, 7, 0] : List Nat).length < 2 ^ 31
    ∧ (∀ x ∈ ([302, 7, 45, 7, 0] : List Nat), x < 10 ^ 9)
    ∧ ∃ r, sort newInstance [302, 7, 45, 7, 0] = .ok r
      ∧ r.returned.Perm [302, 7, 45, 7, 0] ∧ r.returned.Sorted (· ≤ ·) ∧ r.arr = r.returned
      ∧ 1 ≤ r.passes.length ∧ r.passes.length ≤ 9
      ∧ r.passes = (List.range r.passes.length).map (fun k => 10 ^ k)
      ∧ (∀ d ∈ r.passes, d * 10 < 2 ^ 32) :=
  ⟨by decide, by decide,
    sort_below_ten_pow_nine newInstance [302, 7, 45, 7, 0] (by decide) (by decide)⟩

/-- Stable counting sort, for the passes that can be one: a pass with a non-zero
divisor `div`, over two buffers of the same length below `2 ^ 31`, is a stable
counting sort on the key `(value / div) % 10`.
It returns; every placement index `count_[digit] - 1` lies inside the output
buffer and no index is used twice, so the indices are a permutation of all the
slots and every slot is written exactly once; and the output buffer (`s1.input`,
the pointers being swapped at the end of the pass) is the permutation of the
input buffer in non-decreasing key order in which, for every key, the elements
with that key keep the order they had in the input buffer. -/
theorem pass_is_stable_counting_sort (s : Locals) (hdiv : s.div ≠ 0)
    (hlen : s.sorted.length = s.arr.length) (hn : s.arr.length < 2 ^ 31) :
    ∃ s1, pass s = .ok s1
      ∧ (∀ q ∈ placements s, q < s.output.length)
      ∧ (placements s).Nodup
      ∧ (placements s).Perm (List.range s.output.length)
      ∧ s1.output = s.input
      ∧ s1.input = stableByDigit s.div s.input
      ∧ s1.input.Perm s.input
      ∧ s1.input.Pairwise (fun a b => (a / s.div) % 10 ≤ (b / s.div) % 10)
      ∧ (∀ d, s1.input.filter (fun v => decide ((v / s.div) % 10 = d))
          = s.input.filter (fun v => decide ((v / s.div) % 10 = d))) := by
  obtain ⟨s1, hp, h1, h2, _, _, _, _, _, h9, h10, h11⟩ :=
    pass_spec s hdiv hlen (by omega)
  have hout := output_length s hlen
  refine ⟨s1, hp, ?_, h10, ?_, h2, h1, ?_, ?_, ?_⟩
  · intro q hq
    rw [hout]
    exact h11 q hq
  · refine (List.subperm_of_subset h10 ?_).perm_of_length_le ?_
    · intro q hq
      rw [List.mem_range, hout]
      exact h11 q hq
    · rw [List.length_range, h9, hout]
  · rw [h1]
    exact stable_perm _ _
  · rw [h1]
    exact stable_sorted _ _
  · intro d
    rw [h1]
    exact stable_filter s.div s.input d

/-- Example of the stable counting sort: the first pass over `[21, 10, 31, 20]`,
where the keys are `1, 0, 1, 0`. -/
theorem pass_is_stable_counting_sort_example :
    (init newInstance [21, 10, 31, 20]).div ≠ 0
    ∧ ∃ s1, pass (init newInstance [21, 10, 31, 20]) = .ok s1
      ∧ (∀ q ∈ placements (init newInstance [21, 10, 31, 20]),
          q < (init newInstance [21, 10, 31, 20]).output.length)
      ∧ (placements (init newInstance [21, 10, 31, 20])).Nodup
      ∧ (placements (init newInstance [21, 10, 31, 20])).Perm
          (List.range (init newInstance [21, 10, 31, 20]).output.length)
      ∧ s1.output = (init newInstance [21, 10, 31, 20]).input
      ∧ s1.input = stableByDigit (init newInstance [21, 10, 31, 20]).div
          (init newInstance [21, 10, 31, 20]).input
      ∧ s1.input.Perm (init newInstance [21, 10, 31, 20]).input
      ∧ s1.input.Pairwise (fun a b =>
          (a / (init newInstance [21, 10, 31, 20]).div) % 10
            ≤ (b / (init newInstance [21, 10, 31, 20]).div) % 10)
      ∧ (∀ d, s1.input.filter
            (fun v => decide ((v / (init newInstance [21, 10, 31, 20]).div) % 10 = d))
          = (init newInstance [21, 10, 31, 20]).input.filter
            (fun v => decide ((v / (init newInstance [21, 10, 31, 20]).div) % 10 = d))) :=
  ⟨by decide, pass_is_stable_counting_sort (init newInstance [21, 10, 31, 20])
    (by decide) (by decide) (by decide)⟩

set_option maxRecDepth 100000 in
/-- C13 (defect in the code). Not every pass of a run is a stable counting sort.
On `[1000000000]` the loop test after the 32nd pass finds `div = 0` below
`10 ^ radix`, so a 33rd pass is entered with divisor 0; its buffers have equal
length 1, yet the pass divides by zero in the first digit extraction: it places
no element and returns no output buffer. -/
theorem pass_with_zero_divisor_faults :
    loop 32 (init newInstance [1000000000])
        = .error { fault := .outOfFuel, locals := zeroDivisorLocals }
    ∧ zeroDivisorLocals.div = 0
    ∧ zeroDivisorLocals.div < 10 ^ zeroDivisorLocals.radix
    ∧ zeroDivisorLocals.sorted.length = zeroDivisorLocals.arr.length
    ∧ zeroDivisorLocals.arr.length < 2 ^ 31
    ∧ pass zeroDivisorLocals = .error .divideByZero
    ∧ placements zeroDivisorLocals = []
    ∧ loop passBudget (init newInstance [1000000000])
        = .error { fault := .divideByZero, locals := zeroDivisorLocals } :=
  ⟨rfl, rfl, by decide, rfl, by decide, rfl, rfl, rfl⟩

end RadixSort


namespace RadixSort

end RadixSort


namespace RadixSort

end RadixSort


/-! ## BubbleSort: number of passes -/

namespace BubbleSort

theorem doWhile_fuel_mono (fuel : Nat) : ∀ (s s1 : State) (extra : Nat),
    doWhile fuel s = .ok s1 → doWhile (fuel + extra) s = .ok s1 := by
  induction fuel with
  | zero => intro s s1 extra h; exact absurd h (by simp [doWhile])
  | succ f ih =>
    intro s s1 extra h
    rw [show f + 1 + extra = (f + extra) + 1 by omega]
    unfold doWhile at h ⊢
    split at h
    · rename_i s2 hp
      split at h
      · rename_i hsw
        rw [if_pos hsw]
        exact ih _ _ extra h
      · rename_i hsw
        rw [if_neg hsw]
        exact h
    · exact absurd h (by simp)

theorem pass_sorted (x : Nat) (t : List Nat) (h : (x :: t).Sorted (· ≤ ·)) :
    forLoop ((x :: t).length + 1) 0 { arr := x :: t, swapped_ := false }
      = .ok { arr := x :: t, swapped_ := false } := by
  have hpass := forLoop_carry t [] x false (t.length + 1 + 1) (by omega)
  simp only [List.nil_append, List.length_nil] at hpass
  rw [List.length_cons, hpass, carry_sorted t x false h]

/-- C14. For every vector of `n ≥ 1` elements and whatever `swapped_` holds, the
repeat-until-no-swap loop ends within a budget of `n` passes; it stops with
`swapped_ == false`, and the last pass, a pass over the final vector, leaves it
as it is and sets no flag, so it made no exchange (a pass started with the flag
cleared that ends with the flag cleared changes nothing). On a vector already in
non-decreasing order a budget of one pass is enough and the vector is returned
unchanged. -/
theorem passes_at_most_length (swapped_ : Bool) (A : List Nat) (hne : A ≠ []) :
    (∃ r, doWhile A.length { arr := A, swapped_ := swapped_ }
          = .ok { arr := r, swapped_ := false }
        ∧ sort swapped_ A = .ok { returned := r, arr := r, swapped_ := false }
        ∧ forLoop (r.length + 1) 0 { arr := r, swapped_ := false }
            = .ok { arr := r, swapped_ := false })
    ∧ (∀ B B1 : List Nat, B ≠ [] →
        forLoop (B.length + 1) 0 { arr := B, swapped_ := false }
          = .ok { arr := B1, swapped_ := false } → B1 = B)
    ∧ (A.Sorted (· ≤ ·) →
        doWhile 1 { arr := A, swapped_ := swapped_ } = .ok { arr := A, swapped_ := false }
        ∧ doWhile 0 { arr := A, swapped_ := swapped_ } = .error .outOfFuel
        ∧ sort swapped_ A = .ok { returned := A, arr := A, swapped_ := false }) := by
  have hpos : 1 ≤ A.length := by
    cases A with
    | nil => exact absurd rfl hne
    | cons x t => simp
  refine ⟨?_, ?_, ?_⟩
  · obtain ⟨r, h1, h2, h3⟩ := doWhile_sorts A.length A [] swapped_
      List.sorted_nil (by simp) (by simp) hpos (by simpa using hne)
    simp only [List.append_nil] at h1 h2
    refine ⟨r, h1, ?_, ?_⟩
    · unfold sort
      rw [doWhile_fuel_mono _ _ _ 1 h1]
    · cases r with
      | nil =>
        have := h2.length_eq
        simp at this
        omega
      | cons x t => exact pass_sorted x t h3
  · intro B B1 hB h
    cases B with
    | nil => exact absurd rfl hB
    | cons x t =>
      have hpass := forLoop_carry t [] x false (t.length + 1 + 1) (by omega)
      simp only [List.nil_append, List.length_nil] at hpass
      rw [List.length_cons, hpass] at h
      simp only [Except.ok.injEq, State.mk.injEq] at h
      obtain ⟨_, h2, _⟩ := carry_noswap t x false h.2
      rw [← h.1, h2]
  · intro hs
    cases A with
    | nil => exact absurd rfl hne
    | cons x t =>
      have hp := pass_sorted x t hs
      have h1 : doWhile 1 { arr := x :: t, swapped_ := swapped_ }
          = .ok { arr := x :: t, swapped_ := false } := by
        unfold doWhile
        simp only [hp]
        simp
      refine ⟨h1, rfl, ?_⟩
      unfold sort
      rw [show (x :: t).length + 1 = 1 + (x :: t).length by omega,
        doWhile_fuel_mono _ _ _ _ h1]

/-- Witness for C14: the theorem applied to the vector `[3, 2, 1]`, which takes
three passes. -/
theorem passes_at_most_length_witness :
    ([3, 2, 1] : List Nat) ≠ []
    ∧ ∃ r, doWhile [3, 2, 1].length { arr := [3, 2, 1], swapped_ := true }
          = .ok { arr := r, swapped_ := false }
        ∧ sort true [3, 2, 1] = .ok { returned := r, arr := r, swapped_ := false }
        ∧ forLoop (r.length + 1) 0 { arr := r, swapped_ := false }
            = .ok { arr := r, swapped_ := false } :=
  ⟨by decide, (passes_at_most_length true [3, 2, 1] (by decide)).1⟩

end BubbleSort

/-! ## Both algorithms: instance state -/

/-- C15. The outcome of `sort` does not depend on what earlier calls left in the
instance: for every prior content of `count_`, `RadixSort::sort(A)` gives what it
gives on a new instance, and for either prior value of `swapped_`,
`BubbleSort::sort(A)` gives what it gives on a new instance (the returned
sequence, the caller's vector, and the fault when there is one). -/
theorem sort_independent_of_instance_state (count_ : List Nat) (swapped_ : Bool)
    (A : List Nat) :
    RadixSort.sort count_ A = RadixSort.sort RadixSort.newInstance A
    ∧ BubbleSort.sort swapped_ A = BubbleSort.sort BubbleSort.newInstance A := by
  constructor
  · rw [RadixSort.sort_count_irrelevant count_, RadixSort.sort_count_irrelevant RadixSort.newInstance]
  · cases swapped_
    · rfl
    · unfold BubbleSort.sort BubbleSort.doWhile
      rfl



/-! ## The loader: destruction and module names -/

namespace SortAlgorithm

theorem create_ok_inv (P : Platform) (st st1 : Process) (name : String) (h : SortAlgorithm)
    (hcreate : create P st name = (st1, .ok h)) :
    P.dlopen (libname P name) ≠ 0
    ∧ P.dlsym (P.dlopen (libname P name)) "create" ≠ 0
    ∧ P.dlsym (P.dlopen (libname P name)) "destroy" ≠ 0
    ∧ h = (P.construct (P.dlsym (P.dlopen (libname P name)) "create")).setTypeName name := by
  by_cases hopen : P.dlopen (libname P name) = 0
  · simp [create, instanceApiFor_closed P st name hopen] at hcreate
  · by_cases hmiss : P.dlsym (P.dlopen (libname P name)) "create" = 0
        ∨ P.dlsym (P.dlopen (libname P name)) "destroy" = 0
    · simp [create, instanceApiFor_missing P st name hopen hmiss] at hcreate
    · have hc := (not_or.mp hmiss).1
      have hd := (not_or.mp hmiss).2
      simp only [create, instanceApiFor_ok P st name hopen hc hd, Prod.mk.injEq,
        Except.ok.injEq] at hcreate
      exact ⟨hopen, hc, hd, hcreate.2.symm⟩

/-- C11. For every handle obtained from `create(name)`, in whatever state the
process is by then, `destroy(handle)` resolves the entry points for
`handle.typeName`, which is `name`, so for the module that created the handle;
it calls the `destroy` entry point of that module exactly once, with that
handle, calls no factory, and returns with the caller's pointer null. The
function called is the `destroy` of the modules, which deletes the object it is
given and clears the pointer. -/
theorem destroy_calls_module_destructor (P : Platform) (st st1 : Process) (name : String)
    (h : SortAlgorithm) (hcreate : create P st name = (st1, .ok h)) (st2 : Process) :
    h.typeName = name
    ∧ (destroy P st2 (some h)).2 = .ok none
    ∧ (destroy P st2 (some h)).2 = .ok (moduleDestroy (some h)).1
    ∧ (moduleDestroy (some h)).2 = [h]
    ∧ (destroy P st2 (some h)).1.destroyCalls
        = st2.destroyCalls ++ [(P.dlsym (P.dlopen (libname P name)) "destroy", h)]
    ∧ (destroy P st2 (some h)).1.createCalls = st2.createCalls
    ∧ (destroy P st2 (some h)).1.dlopenCalls = st2.dlopenCalls ++ [libname P name]
    ∧ h.allocatedBy
        = (P.construct (P.dlsym (P.dlopen (libname P name)) "create")).allocatedBy := by
  obtain ⟨hopen, hc, hd, hh⟩ := create_ok_inv P st st1 name h hcreate
  have hname : h.typeName = name := by rw [hh]; rfl
  have hd2 : destroy P st2 (some h)
      = ({ st2 with
            dlopenCalls := st2.dlopenCalls ++ [libname P name]
            destroyCalls := st2.destroyCalls
              ++ [(P.dlsym (P.dlopen (libname P name)) "destroy", h)] }, .ok none) := by
    unfold destroy
    simp only [hname, instanceApiFor_ok P st2 name hopen hc hd]
  refine ⟨hname, ?_, ?_, rfl, ?_, ?_, ?_, ?_⟩
  · rw [hd2]
  · rw [hd2]; rfl
  · rw [hd2]
  · rw [hd2]
  · rw [hd2]
  · rw [hh]; rfl

/-- Witness for C11: on the example platform, the handle returned by
`create("bubble")` is destroyed through the entry point at 201. -/
theorem destroy_calls_module_destructor_witness :
    create demoPlatform Process.start "bubble"
        = ({ functionMap_ := [], dlopenCalls := ["libbubble.so"], createCalls := [200],
             destroyCalls := [] }, .ok { typeName_ := "bubble", allocatedBy := 200 })
    ∧ (destroy demoPlatform Process.start
        (some { typeName_ := "bubble", allocatedBy := 200 })).2 = .ok none
    ∧ (destroy demoPlatform Process.start
        (some { typeName_ := "bubble", allocatedBy := 200 })).1.destroyCalls
        = Process.start.destroyCalls
          ++ [(demoPlatform.dlsym (demoPlatform.dlopen (libname demoPlatform "bubble")) "destroy",
              { typeName_ := "bubble", allocatedBy := 200 })] :=
  ⟨rfl,
    (destroy_calls_module_destructor demoPlatform Process.start _ "bubble" _ rfl
      Process.start).2.1,
    (destroy_calls_module_destructor demoPlatform Process.start _ "bubble" _ rfl
      Process.start).2.2.2.2.1⟩

theorem libname_injective (P : Platform) : Function.Injective (libname P) := by
  intro a b hab
  unfold libname at hab
  have h := congrArg String.data hab
  simp only [String.data_append] at h
  have h2 := List.append_cancel_right h
  have h3 := List.append_cancel_left h2
  exact String.ext h3

theorem c_str_of_no_nul (s : String) (h : nul ∉ s.data) : c_str s = s := by
  unfold c_str
  have h2 : s.data.takeWhile (fun c => decide (c ≠ nul)) = s.data := by
    rw [List.takeWhile_eq_self_iff]
    intro c hc
    simp only [decide_eq_true_eq]
    intro hcn
    rw [hcn] at hc
    exact h hc
  rw [h2]

theorem libname_no_nul (P : Platform) (X : String) (h : nul ∉ X.data) :
    nul ∉ (libname P X).data := by
  unfold libname LIBPREFIX LIBSUFFIX
  simp only [String.data_append, List.mem_append, not_or]
  cases P.gnuLinux
  · exact ⟨⟨by decide, h⟩, by decide⟩
  · exact ⟨⟨by decide, h⟩, by decide⟩

/-- What `instanceApiFor` returns, for every name, read off the platform: the
only identifier whose `dlopen` result matters is the C string of
`LIBPREFIX + name + LIBSUFFIX`. -/
theorem instanceApiFor_result (P : Platform) (st : Process) (Z : String) :
    (instanceApiFor P st Z).2
      = (if P.dlopenC (c_str (LIBPREFIX P ++ Z ++ LIBSUFFIX P)) = 0 then .error .exception
         else if P.dlsym (P.dlopenC (c_str (LIBPREFIX P ++ Z ++ LIBSUFFIX P))) "create" = 0
              ∨ P.dlsym (P.dlopenC (c_str (LIBPREFIX P ++ Z ++ LIBSUFFIX P))) "destroy" = 0
           then .error .exception
         else .ok { create_ := P.dlsym (P.dlopenC (c_str (LIBPREFIX P ++ Z ++ LIBSUFFIX P)))
                                  "create"
                    destroy_ := P.dlsym (P.dlopenC (c_str (LIBPREFIX P ++ Z ++ LIBSUFFIX P)))
                                  "destroy" }) := by
  unfold instanceApiFor Platform.dlopen libname
  simp only
  split
  · rfl
  · split <;> rfl

/-- C12, the claim as stated fails. The identifier handed to `dlopen` is
`libname.c_str()`, which stops at the first NUL character. For the two different
names `a NUL b` and `a NUL c` it is `liba` both times, not `lib` + name + `.so`:
on a platform where only `liba` opens (and `lib` + name + `.so` does not),
`create` succeeds for both names. -/
theorem distinct_names_same_identifier_counterexample :
    nameWithNulB ≠ nameWithNulC
    ∧ c_str (libname cutPlatform nameWithNulB) = "liba"
    ∧ c_str (libname cutPlatform nameWithNulC) = "liba"
    ∧ c_str (libname cutPlatform nameWithNulB)
        ≠ LIBPREFIX cutPlatform ++ nameWithNulB ++ LIBSUFFIX cutPlatform
    ∧ cutPlatform.dlopenC (LIBPREFIX cutPlatform ++ nameWithNulB ++ LIBSUFFIX cutPlatform) = 0
    ∧ (create cutPlatform Process.start nameWithNulB).2
        = .ok { typeName_ := nameWithNulB, allocatedBy := 100 }
    ∧ (create cutPlatform Process.start nameWithNulC).2
        = .ok { typeName_ := nameWithNulC, allocatedBy := 100 } :=
  ⟨by decide, by decide, by decide, by decide, by decide, rfl, rfl⟩

/-- C12 as amended. For every name `X` without a NUL character, the identifier
that `instanceApiFor` (and so `create`) asks the platform to open is exactly
`LIBPREFIX + X + LIBSUFFIX`, which is `"lib" + X + ".so"` when `__gnu_linux__` is
defined and `"" + X + ".dll"` otherwise: the outcome is decided by the result of
`dlopen` on that identifier and on no other; and two different names without a
NUL character never give the same identifier. -/
theorem module_identifier_of_name (P : Platform) (st : Process) (X : String)
    (hX : nul ∉ X.data) :
    c_str (libname P X) = LIBPREFIX P ++ X ++ LIBSUFFIX P
    ∧ c_str (libname P X)
        = (if P.gnuLinux = true then "lib" ++ X ++ ".so" else "" ++ X ++ ".dll")
    ∧ P.dlopen (libname P X) = P.dlopenC (LIBPREFIX P ++ X ++ LIBSUFFIX P)
    ∧ (instanceApiFor P st X).2
        = (if P.dlopenC (LIBPREFIX P ++ X ++ LIBSUFFIX P) = 0 then .error .exception
           else if P.dlsym (P.dlopenC (LIBPREFIX P ++ X ++ LIBSUFFIX P)) "create" = 0
                ∨ P.dlsym (P.dlopenC (LIBPREFIX P ++ X ++ LIBSUFFIX P)) "destroy" = 0
             then .error .exception
           else .ok { create_ := P.dlsym (P.dlopenC (LIBPREFIX P ++ X ++ LIBSUFFIX P)) "create"
                      destroy_ := P.dlsym (P.dlopenC (LIBPREFIX P ++ X ++ LIBSUFFIX P))
                                    "destroy" })
    ∧ (∀ Q : Platform, Q.gnuLinux = P.gnuLinux → Q.dlsym = P.dlsym →
        Q.dlopenC (LIBPREFIX P ++ X ++ LIBSUFFIX P) = P.dlopenC (LIBPREFIX P ++ X ++ LIBSUFFIX P) →
        (instanceApiFor Q st X).2 = (instanceApiFor P st X).2)
    ∧ (∀ Y : String, nul ∉ Y.data → c_str (libname P X) = c_str (libname P Y) → X = Y) := by
  have hc : c_str (libname P X) = LIBPREFIX P ++ X ++ LIBSUFFIX P :=
    c_str_of_no_nul _ (libname_no_nul P X hX)
  have hc2 : c_str (LIBPREFIX P ++ X ++ LIBSUFFIX P) = LIBPREFIX P ++ X ++ LIBSUFFIX P := hc
  have hres := instanceApiFor_result P st X
  rw [hc2] at hres
  refine ⟨hc, ?_, ?_, hres, ?_, ?_⟩
  · rw [hc]
    unfold LIBPREFIX LIBSUFFIX
    cases P.gnuLinux <;> rfl
  · unfold Platform.dlopen
    rw [hc]
  · intro Q hg hs hd
    have hpre : LIBPREFIX Q = LIBPREFIX P := by unfold LIBPREFIX; rw [hg]
    have hsuf : LIBSUFFIX Q = LIBSUFFIX P := by unfold LIBSUFFIX; rw [hg]
    have hresQ := instanceApiFor_result Q st X
    rw [hpre, hsuf, hc2, hs, hd] at hresQ
    rw [hresQ, hres]
  · intro Y hY h
    rw [c_str_of_no_nul _ (libname_no_nul P X hX),
      c_str_of_no_nul _ (libname_no_nul P Y hY)] at h
    exact libname_injective P h

/-- Witness for C12 as amended: the name `radix` on the example platform. -/
theorem module_identifier_of_name_witness :
    nul ∉ ("radix" : String).data
    ∧ c_str (libname demoPlatform "radix")
        = LIBPREFIX demoPlatform ++ "radix" ++ LIBSUFFIX demoPlatform
    ∧ c_str (libname demoPlatform "radix")
        = (if demoPlatform.gnuLinux = true then "lib" ++ "radix" ++ ".so"
           else "" ++ "radix" ++ ".dll") :=
  ⟨by decide, (module_identifier_of_name demoPlatform Process.start "radix" (by decide)).1,
    (module_identifier_of_name demoPlatform Process.start "radix" (by decide)).2.1⟩

end SortAlgorithm

end JAC.Integer
